import Mathlib

/-!
# Verification of the wishlist-investor scoring and cash-allocation engine

Shallow embedding of the core of `src/projects/wishlist-investor/generate.py`:
`_normalize_dividend_yield`, `_score_company` and `allocate_cash_scored`.

Modelling conventions:
* Python floats are modelled as exact rationals (`ℚ`); `round(x, n)` is modelled
  as exact round-half-to-even at `n` decimal digits (CPython's documented
  semantics for `round`).
* Optional numeric snapshot fields are `Option ℚ`; the source reads every such
  field through `_safe_float(v, default=0.0)`, which maps absent or non-numeric
  values to `0.0`, modelled by `Option.getD 0` (`qval` below).
* Python dicts keyed by symbol are modelled as total functions `String → ℚ`
  (resp. `Option Snapshot`); the source only ever reads them through
  `.get(sym, default)`.  Wishlists are de-duplicated upstream by
  `load_wishlist`, so iterating the dict keys coincides with iterating the
  wishlist; theorems that depend on this carry a `wishlist.Nodup` hypothesis.
* `math.exp` and float `**` (used only for the softmax and the price tilt) are
  transcendental, so the allocator is parameterised by functions
  `expFn` and `powFn` standing for them; theorems either hold for every
  non-negative choice of these functions or instantiate them at arguments
  where the true functions have rational values (e.g. `exp 0 = 1`).
-/

/-- Round-half-to-even to an integer (CPython `round` tie-breaking). -/
def rhe (x : ℚ) : ℤ :=
  let f := ⌊x⌋
  let r := x - (f : ℚ)
  if r < 1/2 then f
  else if r > 1/2 then f + 1
  else if f % 2 = 0 then f else f + 1

/-- Python `round(x, 2)` over exact rationals. -/
def round2 (x : ℚ) : ℚ := (rhe (100 * x) : ℚ) / 100

/-- Python `round(x, 1)` over exact rationals. -/
def round1 (x : ℚ) : ℚ := (rhe (10 * x) : ℚ) / 10

/-- `_clamp(v, lo, hi) = max(lo, min(hi, v))` from the source. -/
def clampQ (v lo hi : ℚ) : ℚ := max lo (min hi v)

/-- `_safe_float(field, default=0.0)` applied to an optional numeric field. -/
def qval (o : Option ℚ) : ℚ := o.getD 0

theorem rhe_le (x : ℚ) : (rhe x : ℚ) ≤ x + 1/2 := by
  unfold rhe
  have hfl : (⌊x⌋ : ℚ) ≤ x := Int.floor_le x
  by_cases h1 : x - (⌊x⌋ : ℚ) < 1/2
  · simp only [h1, if_true]; linarith
  · simp only [h1, if_false]
    by_cases h2 : x - (⌊x⌋ : ℚ) > 1/2
    · simp only [h2, if_true]; push_cast; linarith
    · simp only [h2, if_false]
      have : x - (⌊x⌋ : ℚ) = 1/2 := le_antisymm (not_lt.mp h2) (not_lt.mp h1)
      by_cases h3 : ⌊x⌋ % 2 = 0 <;> simp only [h3, if_true, if_false] <;> push_cast <;> linarith

theorem le_rhe (x : ℚ) : x - 1/2 ≤ (rhe x : ℚ) := by
  unfold rhe
  have hfl : x < (⌊x⌋ : ℚ) + 1 := Int.lt_floor_add_one x
  by_cases h1 : x - (⌊x⌋ : ℚ) < 1/2
  · simp only [h1, if_true]; linarith
  · simp only [h1, if_false]
    by_cases h2 : x - (⌊x⌋ : ℚ) > 1/2
    · simp only [h2, if_true]; push_cast; linarith
    · simp only [h2, if_false]
      have : x - (⌊x⌋ : ℚ) = 1/2 := le_antisymm (not_lt.mp h2) (not_lt.mp h1)
      by_cases h3 : ⌊x⌋ % 2 = 0 <;> simp only [h3, if_true, if_false] <;> push_cast <;> linarith

/-- If an integer bound lies below `x`, rounding cannot go under it. -/
theorem int_le_rhe {m : ℤ} {x : ℚ} (h : (m : ℚ) ≤ x) : m ≤ rhe x := by
  have hm : m ≤ ⌊x⌋ := Int.le_floor.mpr h
  unfold rhe
  by_cases h1 : x - (⌊x⌋ : ℚ) < 1/2
  · simp only [h1, if_true]; exact hm
  · simp only [h1, if_false]
    by_cases h2 : x - (⌊x⌋ : ℚ) > 1/2
    · simp only [h2, if_true]; omega
    · by_cases h3 : ⌊x⌋ % 2 = 0 <;> simp only [h2, h3, if_true, if_false] <;> omega

theorem rhe_intCast (m : ℤ) : rhe (m : ℚ) = m := by
  unfold rhe
  simp [Int.floor_intCast]

theorem round2_le (x : ℚ) : round2 x ≤ x + 1/200 := by
  have h := rhe_le (100 * x)
  unfold round2
  linarith

theorem le_round2 (x : ℚ) : x - 1/200 ≤ round2 x := by
  have h := le_rhe (100 * x)
  unfold round2
  linarith

theorem round2_nonneg {x : ℚ} (h : 0 ≤ x) : 0 ≤ round2 x := by
  have h0 : ((0 : ℤ) : ℚ) ≤ 100 * x := by push_cast; linarith
  have := int_le_rhe h0
  unfold round2
  have : ((0 : ℤ) : ℚ) ≤ (rhe (100 * x) : ℚ) := by exact_mod_cast this
  push_cast at this
  linarith

/-- A whole-cent lower bound survives `round2`. -/
theorem round2_ge_of_cent {m : ℤ} {x : ℚ} (h : (m : ℚ) / 100 ≤ x) :
    (m : ℚ) / 100 ≤ round2 x := by
  have hm : (m : ℚ) ≤ 100 * x := by linarith
  have := int_le_rhe hm
  have h2 : (m : ℚ) ≤ (rhe (100 * x) : ℚ) := by exact_mod_cast this
  unfold round2
  linarith

/-- `round2` is the identity on whole-cent amounts. -/
theorem round2_cent (m : ℤ) : round2 ((m : ℚ) / 100) = (m : ℚ) / 100 := by
  unfold round2
  have : (100 : ℚ) * ((m : ℚ) / 100) = (m : ℚ) := by ring
  rw [this, rhe_intCast]

theorem abs_round2_sub_le (x : ℚ) : |round2 x - x| ≤ 1/200 := by
  rw [abs_le]
  constructor
  · have := le_round2 x; linarith
  · have := round2_le x; linarith

/-- `_normalize_dividend_yield` from the source: inputs are the
`_safe_float`-coerced dividend yield, dividend rate and price. -/
def normalizeDividendYield (dy dr p : ℚ) : Option ℚ × Bool :=
  let out : Option ℚ :=
    if dy > 0 then some (if dy > 1 ∧ dy ≤ 100 then dy / 100 else dy)
    else if dr > 0 ∧ p > 0 then some (dr / p)
    else none
  match out with
  | none => (none, false)
  | some o => if o < 0 then (none, true) else (some o, o > 25/100)

/-- Normalized quote snapshot (the fields of the cached Yahoo payload that
`_score_company` and `allocate_cash_scored` read).  All numeric fields are
optional; the source reads them via `_safe_float(…, default=0.0)`. -/
structure Snapshot where
  price : Option ℚ
  trailingPE : Option ℚ
  forwardPE : Option ℚ
  dividendYield : Option ℚ
  beta : Option ℚ
  returnOnEquity : Option ℚ
  profitMargins : Option ℚ
  operatingMargins : Option ℚ
  revenueGrowth : Option ℚ
  earningsGrowth : Option ℚ
  debtToEquity : Option ℚ
  payoutRatio : Option ℚ
  country : Option String
  dividendYieldSuspicious : Bool
  deriving Repr

/-- Python `str.upper()` (ASCII), written by structural recursion over the
character list so it evaluates by reduction. -/
def upperAscii (s : String) : String := String.mk (s.data.map Char.toUpper)

/-- Python `str.strip()`: drop leading and trailing whitespace, written by
structural recursion over the character list so it evaluates by reduction. -/
def stripStr (s : String) : String :=
  String.mk (((s.data.dropWhile Char.isWhitespace).reverse.dropWhile Char.isWhitespace).reverse)

/-- `country and country.upper() not in {"UNITED STATES", "US", "USA"}`. -/
def isForeign (c : Option String) : Bool :=
  let s := stripStr (c.getD "")
  s ≠ "" && !(["UNITED STATES", "US", "USA"].contains (upperAscii s))

/-- The score record returned by `_score_company`.  `scoreRaw` and
`concentration` are `Option` because the conservative-default branch returns a
dict without the `score_raw` key and without a `concentration` component. -/
structure ScoreBreakdown where
  score : ℚ
  scoreRaw : Option ℚ
  quality : ℚ
  growth : ℚ
  value : ℚ
  income : ℚ
  risk : ℚ
  afford : ℚ
  concentration : Option ℚ
  notes : List String
  deriving Repr, DecidableEq

/-- `_score_company` from the source. -/
def scoreCompany (quote : Option Snapshot) (curWeight : ℚ) (wholeShares : Bool) :
    ScoreBreakdown :=
  match quote with
  | none =>
      { score := 40, scoreRaw := none
        quality := 0, growth := 0, value := 0, income := 0, risk := -6, afford := 0
        concentration := none
        notes := ["No Yahoo snapshot available; score is conservative default."] }
  | some q =>
      let price := qval q.price
      let pe := qval q.trailingPE
      let fpe := qval q.forwardPE
      let dy := qval q.dividendYield
      let beta := qval q.beta
      let roe := qval q.returnOnEquity
      let pm := qval q.profitMargins
      let om := qval q.operatingMargins
      let rg := qval q.revenueGrowth
      let eg := qval q.earningsGrowth
      let d2e := qval q.debtToEquity
      let payout := qval q.payoutRatio
      let quality :=
        (if pm ≠ 0 then clampQ ((pm - 0.05) / 0.20) (-1) 1 * 10 else 0)
        + (if om ≠ 0 then clampQ ((om - 0.08) / 0.20) (-1) 1 * 8 else 0)
        + (if roe ≠ 0 then clampQ ((roe - 0.10) / 0.25) (-1) 1 * 10 else 0)
      let growth :=
        (if rg ≠ 0 then clampQ (rg / 0.20) (-1) 1 * 10 else 0)
        + (if eg ≠ 0 then clampQ (eg / 0.25) (-1) 1 * 10 else 0)
      let refPe := if fpe > 0 then fpe else pe
      let value :=
        if refPe > 0 then
          (if refPe < 10 then (10 : ℚ)
           else if refPe < 18 then 8
           else if refPe < 28 then 3
           else if refPe < 45 then -3
           else -6)
        else 0
      let income :=
        (if dy > 0 ∧ ¬ q.dividendYieldSuspicious then clampQ (dy / 0.06) 0 1.5 * 10 else 0)
        + (if payout > 0.85 then (-6 : ℚ) else 0)
      let notes :=
        if payout > 0.85 then ["High payout ratio can make dividends less resilient."]
        else ([] : List String)
      let risk :=
        (if beta ≠ 0 then
            (if beta ≥ 1 then -(clampQ ((beta - 1) / 0.8) 0 1.5 * 10)
             else clampQ ((1 - beta) / 0.8) 0 1 * 3)
          else 0)
        + (if d2e ≠ 0 then -(clampQ ((d2e - 120) / 180) 0 1.5 * 8) else 0)
        + (if isForeign q.country then (-3 : ℚ) else 0)
      let afford :=
        if wholeShares ∧ price > 0 then
          (if price ≥ 700 then (-6 : ℚ)
           else if price ≥ 350 then -3
           else if price ≤ 80 then 2
           else 0)
        else 0
      let conc :=
        if curWeight ≥ 0.15 then (-10 : ℚ)
        else if curWeight ≥ 0.10 then -6
        else if curWeight ≥ 0.06 then -3
        else 0
      let rawTotal := 50 + quality + growth + value + income + risk + afford + conc
      let score := clampQ rawTotal 0 100
      { score := round1 score, scoreRaw := some (round2 rawTotal)
        quality := round1 quality, growth := round1 growth, value := round1 value
        income := round1 income, risk := round1 risk, afford := round1 afford
        concentration := some (round1 conc)
        notes := notes }

/-- The environment-sourced configuration read at the top of
`allocate_cash_scored` (env defaults: `MAX_POSITION_WEIGHT=0.20`,
`WI_WHOLE_SHARES=false`, `WI_MIN_ORDER_USD=25`, `WI_PRICE_TILT=0.20`,
`WI_SCORE_TEMPERATURE=10`, `WI_MAX_NEW_ALLOC_PCT=0.40`). -/
structure AllocConfig where
  maxPositionWeight : ℚ
  wholeShares : Bool
  minOrderUsd : ℚ
  priceTilt : ℚ
  scoreTemperature : ℚ
  maxNewAllocPct : ℚ
  deriving Repr, DecidableEq

/-- The documented default configuration. -/
def defaultConfig : AllocConfig :=
  { maxPositionWeight := 0.20, wholeShares := false, minOrderUsd := 25
    priceTilt := 0.20, scoreTemperature := 10, maxNewAllocPct := 0.40 }

/-- Stable insertion into a list sorted by descending raw score: the new
element goes after every element with a strictly larger raw score and before
every element with an equal or smaller one.  Folding this over the list
reproduces Python's stable `sorted(scored, key=lambda x: x[1], reverse=True)`. -/
def insertByRawDesc (x : String × ℚ × ScoreBreakdown) :
    List (String × ℚ × ScoreBreakdown) → List (String × ℚ × ScoreBreakdown)
  | [] => [x]
  | y :: ys => if x.2.1 < y.2.1 then y :: insertByRawDesc x ys else x :: y :: ys

/-- Stable sort by descending raw score (`by_score` in the source). -/
def sortByRawDesc (l : List (String × ℚ × ScoreBreakdown)) :
    List (String × ℚ × ScoreBreakdown) :=
  l.foldr insertByRawDesc []

/-- Ascending insertion for the price list (`prices.sort()`). -/
def insertAsc (x : ℚ) : List ℚ → List ℚ
  | [] => [x]
  | y :: ys => if x < y then x :: y :: ys else y :: insertAsc x ys

/-- Ascending sort of the wishlist price universe. -/
def sortAscQ (l : List ℚ) : List ℚ := l.foldr insertAsc []

/-- Functional update of one symbol's allocation (`alloc[sym] = v`). -/
def updateAt (f : String → ℚ) (sym : String) (v : ℚ) : String → ℚ :=
  fun s => if s = sym then v else f s

/-- `p = _safe_float((quotes.get(sym) or {}).get("price"), 0.0)`. -/
def priceOf (quotes : String → Option Snapshot) (sym : String) : ℚ :=
  qval ((quotes sym).bind Snapshot.price)

/-- Mutable state of the leftover-redistribution loop. -/
structure RState where
  alloc : String → ℚ
  leftover : ℚ

/-- The effective headroom for one symbol inside the redistribution loop:
`room = max(0, caps[sym] - alloc[sym])` followed by
`room = min(room, max(0, per_name_new_alloc_cap - alloc[sym]))`.
`none` stands for the source's `float("inf")` (no cap configured). -/
def roomFor (capsOf : String → Option ℚ) (perNameCap : Option ℚ) (a : ℚ)
    (sym : String) : Option ℚ :=
  match capsOf sym, perNameCap with
  | some c, some k => some (min (max 0 (c - a)) (max 0 (k - a)))
  | some c, none => some (max 0 (c - a))
  | none, some k => some (max 0 (k - a))
  | none, none => none

/-- One symbol visit inside a redistribution pass.  Returns `none` when the
source's loop body hits a `continue`, and the updated state otherwise. -/
def redistStep (cfg : AllocConfig) (quotes : String → Option Snapshot)
    (capsOf : String → Option ℚ) (perNameCap : Option ℚ)
    (st : RState) (sym : String) : Option RState :=
  let a := st.alloc sym
  match roomFor capsOf perNameCap a sym with
  | some r =>
      if r ≤ 0 then none
      else if cfg.wholeShares then
        let p := priceOf quotes sym
        if p ≤ 0 then none
        else if st.leftover < p ∨ r < p then none
        else some ⟨updateAt st.alloc sym (round2 (a + p)), round2 (st.leftover - p)⟩
      else
        let add := min st.leftover r
        if add < cfg.minOrderUsd then none
        else some ⟨updateAt st.alloc sym (round2 (a + add)), round2 (st.leftover - add)⟩
  | none =>
      if cfg.wholeShares then
        let p := priceOf quotes sym
        if p ≤ 0 then none
        else if st.leftover < p then none
        else some ⟨updateAt st.alloc sym (round2 (a + p)), round2 (st.leftover - p)⟩
      else
        let add := st.leftover
        if add < cfg.minOrderUsd then none
        else some ⟨updateAt st.alloc sym (round2 (a + add)), round2 (st.leftover - add)⟩

/-- One full pass over `by_score`, threading the `progressed` flag and
honouring the source's early `break` once the leftover drops below the
minimum-order floor. -/
def passGo (cfg : AllocConfig) (quotes : String → Option Snapshot)
    (capsOf : String → Option ℚ) (perNameCap : Option ℚ) :
    List (String × ℚ × ScoreBreakdown) → RState → Bool → RState × Bool
  | [], st, progressed => (st, progressed)
  | e :: rest, st, progressed =>
      match redistStep cfg quotes capsOf perNameCap st e.1 with
      | none => passGo cfg quotes capsOf perNameCap rest st progressed
      | some st' =>
          if st'.leftover < cfg.minOrderUsd then (st', true)
          else passGo cfg quotes capsOf perNameCap rest st' true

/-- The bounded redistribution loop: up to `fuel` passes (2000 in the source),
stopping after any pass that makes no progress or leaves less than the
minimum-order floor. -/
def redistLoop (cfg : AllocConfig) (quotes : String → Option Snapshot)
    (capsOf : String → Option ℚ) (perNameCap : Option ℚ)
    (bs : List (String × ℚ × ScoreBreakdown)) : Nat → RState → RState
  | 0, st => st
  | Nat.succ fuel, st =>
      let pr := passGo cfg quotes capsOf perNameCap bs st false
      if pr.2 = false ∨ pr.1.leftover < cfg.minOrderUsd then pr.1
      else redistLoop cfg quotes capsOf perNameCap bs fuel pr.1

/-- The pair returned by `allocate_cash_scored`: the allocation dict together
with the fields of the `meta` dict that the claims mention (plus the
configuration echo fields). -/
structure AllocOutput where
  alloc : String → ℚ
  unallocatedCash : ℚ
  scores : List (String × ScoreBreakdown)
  wholeShares : Bool
  minOrderUsd : ℚ
  priceTilt : ℚ
  scoreTemperature : ℚ
  maxNewAllocPct : ℚ
  maxPositionWeight : ℚ

/-- All inputs of `allocate_cash_scored`.  `expFn` stands for `math.exp` and
`powFn x y` for the float power `x ** y`; both are strictly positive real
functions, abstracted because they are transcendental (theorems either hold
for every non-negative choice or instantiate them at arguments where the true
functions have rational values, e.g. `exp 0 = 1`). -/
structure AllocCtx where
  expFn : ℚ → ℚ
  powFn : ℚ → ℚ → ℚ
  cfg : AllocConfig
  investableCash : ℚ
  wishlist : List String
  quotes : String → Option Snapshot
  holdingValues : String → ℚ
  holdingsTotalValue : ℚ

namespace AllocCtx

/-- `post_total` / `denom`: the post-trade total used for weight caps. -/
def denom (A : AllocCtx) : ℚ :=
  if A.holdingsTotalValue + A.investableCash > 0 then A.holdingsTotalValue + A.investableCash
  else 1

/-- `per_name_new_alloc_cap` (`none` = `float("inf")`). -/
def perNameCap (A : AllocCtx) : Option ℚ :=
  if A.cfg.maxNewAllocPct > 0 then some (A.investableCash * A.cfg.maxNewAllocPct) else none

/-- The per-symbol score computed in the `scored` loop. -/
def scoreOf (A : AllocCtx) (sym : String) : ScoreBreakdown :=
  let curVal := A.holdingValues sym
  let curW := if A.denom > 0 then curVal / A.denom else 0
  scoreCompany (A.quotes sym) curW A.cfg.wholeShares

/-- `raw = _safe_float(s.get("score_raw"), default=_safe_float(s.get("score")))`. -/
def rawOf (A : AllocCtx) (sym : String) : ℚ :=
  ((A.scoreOf sym).scoreRaw).getD (A.scoreOf sym).score

/-- The `scored` list of `(sym, raw, breakdown)` triples, in wishlist order. -/
def scored (A : AllocCtx) : List (String × ℚ × ScoreBreakdown) :=
  A.wishlist.map fun sym => (sym, A.rawOf sym, A.scoreOf sym)

/-- `p_ref`: the median positive wishlist price. -/
def pRef (A : AllocCtx) : ℚ :=
  let prices := sortAscQ ((A.wishlist.map (priceOf A.quotes)).filter fun p => 0 < p)
  prices.getD (prices.length / 2) 0

/-- `temp = softmax_temp if softmax_temp > 0 else 10.0`. -/
def temp (A : AllocCtx) : ℚ :=
  if A.cfg.scoreTemperature > 0 then A.cfg.scoreTemperature else 10

/-- `max_raw = max((raw for ...), default=0.0)`. -/
def maxRaw (A : AllocCtx) : ℚ := ((A.scored.map fun e => e.2.1).max?).getD 0

/-- `exps[sym] = math.exp((raw - max_raw) / temp)`. -/
def expOf (A : AllocCtx) (sym : String) : ℚ :=
  A.expFn ((A.rawOf sym - A.maxRaw) / A.temp)

/-- `total_exp = sum(exps.values()) or 1.0`. -/
def totalExp (A : AllocCtx) : ℚ :=
  let t := (A.wishlist.map A.expOf).sum
  if t = 0 then 1 else t

/-- `raw_w[sym]`: softmax weight with optional price tilt. -/
def rawW (A : AllocCtx) (sym : String) : ℚ :=
  let w := A.expOf sym / A.totalExp
  let p := priceOf A.quotes sym
  if A.cfg.priceTilt ≠ 0 ∧ p > 0 ∧ A.pRef > 0 then w * A.powFn (A.pRef / p) A.cfg.priceTilt
  else w

/-- `total_w = sum(raw_w.values()) or 1.0`. -/
def totalW (A : AllocCtx) : ℚ :=
  let t := (A.wishlist.map A.rawW).sum
  if t = 0 then 1 else t

/-- `caps[sym] = max(0, cap_val - cur_val)` (`none` = no position-weight cap). -/
def capsOf (A : AllocCtx) (sym : String) : Option ℚ :=
  if A.cfg.maxPositionWeight > 0 then
    some (max 0 (A.cfg.maxPositionWeight * A.denom - A.holdingValues sym))
  else none

/-- First proportional pass: `alloc[sym] = max(0, min(ideal, max_add))`. -/
def alloc1 (A : AllocCtx) (sym : String) : ℚ :=
  if sym ∈ A.wishlist then
    let ideal0 := A.investableCash * (A.rawW sym / A.totalW)
    let ideal :=
      if A.cfg.maxNewAllocPct > 0 then min ideal0 (A.investableCash * A.cfg.maxNewAllocPct)
      else ideal0
    match A.capsOf sym with
    | some maxAdd => max 0 (min ideal maxAdd)
    | none => max 0 ideal
  else 0

/-- Dust removal: allocations below the minimum-order floor are zeroed. -/
def alloc2 (A : AllocCtx) (sym : String) : ℚ :=
  if A.alloc1 sym < A.cfg.minOrderUsd then 0 else A.alloc1 sym

/-- Optional whole-share rounding of the first-pass allocations. -/
def alloc3 (A : AllocCtx) : String → ℚ :=
  if A.cfg.wholeShares then fun sym =>
    if sym ∈ A.wishlist then
      let p := priceOf A.quotes sym
      if p ≤ 0 ∨ A.alloc2 sym ≤ 0 then 0
      else round2 ((⌊A.alloc2 sym / p⌋ : ℚ) * p)
    else 0
  else A.alloc2

/-- `leftover = max(0, investable_cash - spent)` entering the loop. -/
def leftover0 (A : AllocCtx) : ℚ :=
  max 0 (A.investableCash - (A.wishlist.map A.alloc3).sum)

/-- `by_score = sorted(scored, key=lambda x: x[1], reverse=True)`. -/
def byScore (A : AllocCtx) : List (String × ℚ × ScoreBreakdown) :=
  sortByRawDesc A.scored

/-- The state after the (guarded) leftover-redistribution loop. -/
def finalState (A : AllocCtx) : RState :=
  if A.leftover0 > 0 then
    redistLoop A.cfg A.quotes A.capsOf A.perNameCap A.byScore 2000 ⟨A.alloc3, A.leftover0⟩
  else ⟨A.alloc3, A.leftover0⟩

end AllocCtx

/-- `allocate_cash_scored` from the source, assembled from the staged
definitions above. -/
def allocateCashScored (expFn : ℚ → ℚ) (powFn : ℚ → ℚ → ℚ) (cfg : AllocConfig)
    (investableCash : ℚ) (wishlist : List String)
    (quotes : String → Option Snapshot) (holdingValues : String → ℚ)
    (holdingsTotalValue : ℚ) : AllocOutput :=
  let A : AllocCtx :=
    ⟨expFn, powFn, cfg, investableCash, wishlist, quotes, holdingValues, holdingsTotalValue⟩
  { alloc := A.finalState.alloc
    unallocatedCash := round2 A.finalState.leftover
    scores := A.scored.map fun e => (e.1, e.2.2)
    wholeShares := cfg.wholeShares
    minOrderUsd := round2 cfg.minOrderUsd
    priceTilt := cfg.priceTilt
    scoreTemperature := cfg.scoreTemperature
    maxNewAllocPct := cfg.maxNewAllocPct
    maxPositionWeight := cfg.maxPositionWeight }

/-- Map a present-but-zero optional numeric field to an absent one. -/
def zeroToNone (o : Option ℚ) : Option ℚ := if o = some 0 then none else o

/-- Replace every numeric field that is present with value exactly 0 by an
absent field (the string/flag fields are untouched). -/
def scrubZeros (q : Snapshot) : Snapshot :=
  { price := zeroToNone q.price
    trailingPE := zeroToNone q.trailingPE
    forwardPE := zeroToNone q.forwardPE
    dividendYield := zeroToNone q.dividendYield
    beta := zeroToNone q.beta
    returnOnEquity := zeroToNone q.returnOnEquity
    profitMargins := zeroToNone q.profitMargins
    operatingMargins := zeroToNone q.operatingMargins
    revenueGrowth := zeroToNone q.revenueGrowth
    earningsGrowth := zeroToNone q.earningsGrowth
    debtToEquity := zeroToNone q.debtToEquity
    payoutRatio := zeroToNone q.payoutRatio
    country := q.country
    dividendYieldSuspicious := q.dividendYieldSuspicious }

theorem qval_zeroToNone (o : Option ℚ) : qval (zeroToNone o) = qval o := by
  rcases o with _ | v
  · rfl
  · by_cases h : v = 0 <;> simp [zeroToNone, qval, h]

theorem sum_map_updateAt (f : String → ℚ) (v : ℚ) :
    ∀ (l : List String), l.Nodup → ∀ {sym : String}, sym ∈ l →
      (l.map (updateAt f sym v)).sum = (l.map f).sum + v - f sym := by
  intro l
  induction l with
  | nil => intro _ sym h; cases h
  | cons x xs ih =>
      intro hnd sym hmem
      rcases List.nodup_cons.mp hnd with ⟨hx, hxs⟩
      rcases List.mem_cons.mp hmem with rfl | hm
      · have hmap : xs.map (updateAt f sym v) = xs.map f := by
          apply List.map_congr_left
          intro a ha
          have hne : a ≠ sym := fun h => hx (h ▸ ha)
          simp [updateAt, hne]
        simp only [List.map_cons, List.sum_cons, hmap, updateAt, if_pos rfl]
        simp only [if_true]
        ring
      · have hne : x ≠ sym := fun h => hx (h ▸ hm)
        simp only [List.map_cons, List.sum_cons, updateAt, hne, if_false, ih hxs hm]
        ring

theorem insertByRawDesc_perm (x : String × ℚ × ScoreBreakdown) :
    ∀ l, List.Perm (insertByRawDesc x l) (x :: l) := by
  intro l
  induction l with
  | nil => simp [insertByRawDesc]
  | cons y ys ih =>
      unfold insertByRawDesc
      by_cases h : x.2.1 < y.2.1
      · simp only [h, if_true]
        exact (ih.cons y).trans (List.Perm.swap x y ys)
      · simp [h]

theorem sortByRawDesc_perm : ∀ l, List.Perm (sortByRawDesc l) l := by
  intro l
  induction l with
  | nil => simp [sortByRawDesc]
  | cons x xs ih =>
      have : sortByRawDesc (x :: xs) = insertByRawDesc x (sortByRawDesc xs) := rfl
      rw [this]
      exact (insertByRawDesc_perm x (sortByRawDesc xs)).trans (ih.cons x)

theorem insertByRawDesc_sorted (x : String × ℚ × ScoreBreakdown) :
    ∀ l, List.Pairwise (fun a b => b.2.1 ≤ a.2.1) l →
      List.Pairwise (fun a b => b.2.1 ≤ a.2.1) (insertByRawDesc x l) := by
  intro l
  induction l with
  | nil => intro _; simp [insertByRawDesc]
  | cons y ys ih =>
      intro hp
      rcases List.pairwise_cons.mp hp with ⟨hy, hys⟩
      unfold insertByRawDesc
      by_cases h : x.2.1 < y.2.1
      · simp only [h, if_true]
        refine List.pairwise_cons.mpr ⟨?_, ih hys⟩
        intro e he
        have : e ∈ x :: ys := (insertByRawDesc_perm x ys).mem_iff.mp he
        rcases List.mem_cons.mp this with rfl | hm
        · exact le_of_lt h
        · exact hy e hm
      · simp only [h, if_false]
        refine List.pairwise_cons.mpr ⟨?_, hp⟩
        intro e he
        rcases List.mem_cons.mp he with rfl | hm
        · exact not_lt.mp h
        · exact le_trans (hy e hm) (not_lt.mp h)

theorem sortByRawDesc_sorted :
    ∀ l, List.Pairwise (fun a b => b.2.1 ≤ a.2.1) (sortByRawDesc l) := by
  intro l
  induction l with
  | nil => simp [sortByRawDesc]
  | cons x xs ih => exact insertByRawDesc_sorted x (sortByRawDesc xs) ih

theorem filter_insertByRawDesc_pos (p : String × ℚ × ScoreBreakdown → Bool)
    (x : String × ℚ × ScoreBreakdown) (hx : p x = true)
    (habove : ∀ y, x.2.1 < y.2.1 → p y = false) :
    ∀ l, (insertByRawDesc x l).filter p = x :: l.filter p := by
  intro l
  induction l with
  | nil => simp [insertByRawDesc, hx]
  | cons y ys ih =>
      unfold insertByRawDesc
      by_cases h : x.2.1 < y.2.1
      · simp only [h, if_true, List.filter_cons, habove y h, ih]
        simp
      · simp [List.filter_cons, hx, h]

theorem filter_insertByRawDesc_neg (p : String × ℚ × ScoreBreakdown → Bool)
    (x : String × ℚ × ScoreBreakdown) (hx : p x = false) :
    ∀ l, (insertByRawDesc x l).filter p = l.filter p := by
  intro l
  induction l with
  | nil => simp [insertByRawDesc, hx]
  | cons y ys ih =>
      unfold insertByRawDesc
      by_cases h : x.2.1 < y.2.1
      · simp only [h, if_true, List.filter_cons, ih]
      · simp [List.filter_cons, hx, h]

/-- Stability of the descending sort: the elements of any one raw-score class
appear in the sorted list exactly in their original (wishlist) order. -/
theorem sortByRawDesc_stable (r : ℚ) :
    ∀ l, (sortByRawDesc l).filter (fun e => decide (e.2.1 = r))
      = l.filter (fun e => decide (e.2.1 = r)) := by
  intro l
  induction l with
  | nil => simp [sortByRawDesc]
  | cons x xs ih =>
      have hrw : sortByRawDesc (x :: xs) = insertByRawDesc x (sortByRawDesc xs) := rfl
      rw [hrw]
      by_cases hx : x.2.1 = r
      · rw [filter_insertByRawDesc_pos _ x (by simp [hx]) ?_ (sortByRawDesc xs)]
        · simp [List.filter_cons, hx, ih]
        · intro y hy
          have : y.2.1 ≠ r := by rw [← hx]; exact ne_of_gt hy
          simp [this]
      · rw [filter_insertByRawDesc_neg _ x (by simp [hx]) (sortByRawDesc xs)]
        simp [List.filter_cons, hx, ih]

theorem roomFor_le_cap {capsOf : String → Option ℚ} {perNameCap : Option ℚ} {a : ℚ}
    {sym : String} {c r : ℚ} (hc : capsOf sym = some c)
    (hr : roomFor capsOf perNameCap a sym = some r) : r ≤ max 0 (c - a) := by
  unfold roomFor at hr
  rw [hc] at hr
  cases perNameCap with
  | none => simp only [Option.some.injEq] at hr; exact hr ▸ le_refl _
  | some k =>
      simp only [Option.some.injEq] at hr
      exact hr ▸ min_le_left _ _

theorem roomFor_none {capsOf : String → Option ℚ} {perNameCap : Option ℚ} {a : ℚ}
    {sym : String} (hr : roomFor capsOf perNameCap a sym = none) : capsOf sym = none := by
  unfold roomFor at hr
  cases hcs : capsOf sym with
  | none => rfl
  | some c => rw [hcs] at hr; cases perNameCap <;> simp at hr

theorem pos_le_max_zero {x y : ℚ} (hx : 0 < x) (h : x ≤ max 0 y) : x ≤ y := by
  rcases le_or_lt y 0 with hy | hy
  · rw [max_eq_left hy] at h; linarith
  · rwa [max_eq_right (le_of_lt hy)] at h

/-- Anatomy of one successful redistribution step: the allocation of `sym`
grows by `add` (rounded to cents), the leftover shrinks by `add` (rounded to
cents), and `add` respects the leftover, the position cap, and the
minimum-order floor (fractional mode) resp. equals the price (whole mode). -/
theorem redistStep_spec {cfg : AllocConfig} {quotes : String → Option Snapshot}
    {capsOf : String → Option ℚ} {perNameCap : Option ℚ} {st : RState}
    {sym : String} {st' : RState}
    (h : redistStep cfg quotes capsOf perNameCap st sym = some st') :
    ∃ add : ℚ,
      st'.alloc = updateAt st.alloc sym (round2 (st.alloc sym + add))
      ∧ st'.leftover = round2 (st.leftover - add)
      ∧ add ≤ st.leftover
      ∧ (0 ≤ st.leftover → 0 ≤ add)
      ∧ (∀ c, capsOf sym = some c → st.alloc sym + add ≤ c)
      ∧ (cfg.wholeShares = false → cfg.minOrderUsd ≤ add)
      ∧ (cfg.wholeShares = true → add = priceOf quotes sym ∧ 0 < add) := by
  simp only [redistStep] at h
  cases hroom : roomFor capsOf perNameCap (st.alloc sym) sym with
  | some r =>
      rw [hroom] at h
      simp only [] at h
      by_cases h0 : r ≤ 0
      · simp [h0] at h
      · rw [if_neg h0] at h
        by_cases hws : cfg.wholeShares
        · rw [if_pos hws] at h
          by_cases hp : priceOf quotes sym ≤ 0
          · simp [hp] at h
          · rw [if_neg hp] at h
            by_cases hlt : st.leftover < priceOf quotes sym ∨ r < priceOf quotes sym
            · simp [hlt] at h
            · rw [if_neg hlt] at h
              push_neg at hlt
              rw [Option.some.injEq] at h
              subst h
              refine ⟨priceOf quotes sym, rfl, rfl, hlt.1, fun _ => le_of_lt (not_le.mp hp),
                ?_, fun hcon => absurd hws (by simp [hcon]), fun _ => ⟨rfl, not_le.mp hp⟩⟩
              intro c hc
              have hrc := roomFor_le_cap hc hroom
              have : priceOf quotes sym ≤ max 0 (c - st.alloc sym) := le_trans hlt.2 hrc
              have := pos_le_max_zero (not_le.mp hp) this
              linarith
        · rw [if_neg hws] at h
          by_cases hadd : min st.leftover r < cfg.minOrderUsd
          · simp [hadd] at h
          · rw [if_neg hadd] at h
            rw [Option.some.injEq] at h
            subst h
            refine ⟨min st.leftover r, rfl, rfl, min_le_left _ _, ?_, ?_,
              fun _ => not_lt.mp hadd, fun hcon => absurd hcon (by simpa using hws)⟩
            · intro hl
              exact le_min hl (le_of_lt (not_le.mp h0))
            · intro c hc
              have hrc := roomFor_le_cap hc hroom
              rcases le_or_lt (min st.leftover r) 0 with hm | hm
              · have : 0 < c - st.alloc sym := by
                  have := pos_le_max_zero (not_le.mp h0) hrc
                  linarith
                linarith
              · have : min st.leftover r ≤ max 0 (c - st.alloc sym) :=
                  le_trans (min_le_right _ _) hrc
                have := pos_le_max_zero hm this
                linarith
  | none =>
      rw [hroom] at h
      simp only [] at h
      have hcs := roomFor_none hroom
      by_cases hws : cfg.wholeShares
      · rw [if_pos hws] at h
        by_cases hp : priceOf quotes sym ≤ 0
        · simp [hp] at h
        · rw [if_neg hp] at h
          by_cases hlt : st.leftover < priceOf quotes sym
          · simp [hlt] at h
          · rw [if_neg hlt] at h
            rw [Option.some.injEq] at h
            subst h
            exact ⟨priceOf quotes sym, rfl, rfl, not_lt.mp hlt,
              fun _ => le_of_lt (not_le.mp hp),
              fun c hc => absurd (hcs ▸ hc) (by simp),
              fun hcon => absurd hws (by simp [hcon]), fun _ => ⟨rfl, not_le.mp hp⟩⟩
      · rw [if_neg hws] at h
        by_cases hadd : st.leftover < cfg.minOrderUsd
        · simp [hadd] at h
        · rw [if_neg hadd] at h
          rw [Option.some.injEq] at h
          subst h
          exact ⟨st.leftover, rfl, rfl, le_refl _, fun hl => hl,
            fun c hc => absurd (hcs ▸ hc) (by simp),
            fun _ => not_lt.mp hadd, fun hcon => absurd hcon (by simpa using hws)⟩

theorem passGo_preserve (cfg : AllocConfig) (quotes : String → Option Snapshot)
    (capsOf : String → Option ℚ) (perNameCap : Option ℚ)
    (P : RState → Prop) (S : String → Prop)
    (hstep : ∀ st sym st', S sym →
      redistStep cfg quotes capsOf perNameCap st sym = some st' → P st → P st') :
    ∀ (l : List (String × ℚ × ScoreBreakdown)) (st : RState) (b : Bool),
      (∀ e ∈ l, S e.1) → P st → P (passGo cfg quotes capsOf perNameCap l st b).1 := by
  intro l
  induction l with
  | nil => intro st b _ h; simpa [passGo] using h
  | cons e rest ih =>
      intro st b hS h
      have hSe : S e.1 := hS e (by simp)
      have hSr : ∀ x ∈ rest, S x.1 := fun x hx => hS x (by simp [hx])
      simp only [passGo]
      cases hs : redistStep cfg quotes capsOf perNameCap st e.1 with
      | none => exact ih st b hSr h
      | some st' =>
          have h' := hstep st e.1 st' hSe hs h
          by_cases hl : st'.leftover < cfg.minOrderUsd
          · simp only [hl, if_true]; exact h'
          · simp only [hl, if_false]; exact ih st' true hSr h'

theorem redistLoop_preserve (cfg : AllocConfig) (quotes : String → Option Snapshot)
    (capsOf : String → Option ℚ) (perNameCap : Option ℚ)
    (bs : List (String × ℚ × ScoreBreakdown))
    (P : RState → Prop) (S : String → Prop)
    (hstep : ∀ st sym st', S sym →
      redistStep cfg quotes capsOf perNameCap st sym = some st' → P st → P st')
    (hS : ∀ e ∈ bs, S e.1) :
    ∀ (fuel : Nat) (st : RState), P st →
      P (redistLoop cfg quotes capsOf perNameCap bs fuel st) := by
  intro fuel
  induction fuel with
  | zero => intro st h; exact h
  | succ n ih =>
      intro st h
      have hp := passGo_preserve cfg quotes capsOf perNameCap P S hstep bs st false hS h
      simp only [redistLoop]
      split
      · exact hp
      · exact ih _ hp

/-- The quantity conserved (up to rounding) by the redistribution loop. -/
def sumState (wl : List String) (st : RState) : ℚ := (wl.map st.alloc).sum + st.leftover

theorem redistStep_drift {cfg : AllocConfig} {quotes : String → Option Snapshot}
    {capsOf : String → Option ℚ} {perNameCap : Option ℚ} {wl : List String}
    (hnd : wl.Nodup) {st : RState} {sym : String} {st' : RState} (hmem : sym ∈ wl)
    (h : redistStep cfg quotes capsOf perNameCap st sym = some st') :
    |sumState wl st' - sumState wl st| ≤ 1/100 := by
  obtain ⟨add, ha, hl, -, -, -, -, -⟩ := redistStep_spec h
  unfold sumState
  rw [ha, hl, sum_map_updateAt st.alloc (round2 (st.alloc sym + add)) wl hnd hmem]
  have h1 := abs_round2_sub_le (st.alloc sym + add)
  have h2 := abs_round2_sub_le (st.leftover - add)
  have hrw : (wl.map st.alloc).sum + round2 (st.alloc sym + add) - st.alloc sym
      + round2 (st.leftover - add) - ((wl.map st.alloc).sum + st.leftover)
      = (round2 (st.alloc sym + add) - (st.alloc sym + add))
        + (round2 (st.leftover - add) - (st.leftover - add)) := by ring
  rw [hrw]
  calc |(round2 (st.alloc sym + add) - (st.alloc sym + add))
        + (round2 (st.leftover - add) - (st.leftover - add))|
      ≤ |round2 (st.alloc sym + add) - (st.alloc sym + add)|
        + |round2 (st.leftover - add) - (st.leftover - add)| := abs_add _ _
    _ ≤ 1/100 := by linarith

theorem passGo_drift (cfg : AllocConfig) (quotes : String → Option Snapshot)
    (capsOf : String → Option ℚ) (perNameCap : Option ℚ) {wl : List String}
    (hnd : wl.Nodup) :
    ∀ (l : List (String × ℚ × ScoreBreakdown)) (st : RState) (b : Bool),
      (∀ e ∈ l, e.1 ∈ wl) →
      |sumState wl (passGo cfg quotes capsOf perNameCap l st b).1 - sumState wl st|
        ≤ (l.length : ℚ) * (1/100) := by
  intro l
  induction l with
  | nil => intro st b _; simp [passGo]
  | cons e rest ih =>
      intro st b hS
      have hmem : e.1 ∈ wl := hS e (by simp)
      have hSr : ∀ x ∈ rest, x.1 ∈ wl := fun x hx => hS x (by simp [hx])
      have hlen : ((rest.length : ℚ)) * (1/100) ≤ ((e :: rest).length : ℚ) * (1/100) := by
        have : ((rest.length : ℚ)) ≤ ((e :: rest).length : ℚ) := by
          simp only [List.length_cons]; push_cast; linarith
        linarith
      simp only [passGo]
      cases hs : redistStep cfg quotes capsOf perNameCap st e.1 with
      | none => exact le_trans (ih st b hSr) hlen
      | some st' =>
          have hd := redistStep_drift hnd hmem hs
          have hlen1 : (1 : ℚ)/100 + (rest.length : ℚ) * (1/100)
              ≤ ((e :: rest).length : ℚ) * (1/100) := by
            simp only [List.length_cons]; push_cast; linarith
          by_cases hl : st'.leftover < cfg.minOrderUsd
          · simp only [hl, if_true]
            refine le_trans hd ?_
            have : (0 : ℚ) ≤ (rest.length : ℚ) * (1/100) := by positivity
            linarith
          · simp only [hl, if_false]
            have h2 := ih st' true hSr
            calc |sumState wl (passGo cfg quotes capsOf perNameCap rest st' true).1
                  - sumState wl st|
                ≤ |sumState wl (passGo cfg quotes capsOf perNameCap rest st' true).1
                    - sumState wl st'| + |sumState wl st' - sumState wl st| :=
                  abs_sub_le _ _ _
              _ ≤ (rest.length : ℚ) * (1/100) + 1/100 := by linarith
              _ ≤ ((e :: rest).length : ℚ) * (1/100) := by linarith

theorem redistLoop_drift (cfg : AllocConfig) (quotes : String → Option Snapshot)
    (capsOf : String → Option ℚ) (perNameCap : Option ℚ) {wl : List String}
    (hnd : wl.Nodup) {bs : List (String × ℚ × ScoreBreakdown)}
    (hS : ∀ e ∈ bs, e.1 ∈ wl) :
    ∀ (fuel : Nat) (st : RState),
      |sumState wl (redistLoop cfg quotes capsOf perNameCap bs fuel st) - sumState wl st|
        ≤ (fuel : ℚ) * ((bs.length : ℚ) * (1/100)) := by
  intro fuel
  induction fuel with
  | zero => intro st; simp [redistLoop]
  | succ n ih =>
      intro st
      have hpass := passGo_drift cfg quotes capsOf perNameCap hnd bs st false hS
      have hpos : (0 : ℚ) ≤ (bs.length : ℚ) * (1/100) := by positivity
      simp only [redistLoop]
      split
      · refine le_trans hpass ?_
        have : ((n : ℚ) + 1) * ((bs.length : ℚ) * (1/100))
            = (n : ℚ) * ((bs.length : ℚ) * (1/100)) + (bs.length : ℚ) * (1/100) := by ring
        push_cast
        rw [this]
        have : (0 : ℚ) ≤ (n : ℚ) * ((bs.length : ℚ) * (1/100)) := by positivity
        linarith
      · have h1 := ih (passGo cfg quotes capsOf perNameCap bs st false).1
        calc |sumState wl (redistLoop cfg quotes capsOf perNameCap bs n
                (passGo cfg quotes capsOf perNameCap bs st false).1) - sumState wl st|
            ≤ |sumState wl (redistLoop cfg quotes capsOf perNameCap bs n
                  (passGo cfg quotes capsOf perNameCap bs st false).1)
                - sumState wl (passGo cfg quotes capsOf perNameCap bs st false).1|
              + |sumState wl (passGo cfg quotes capsOf perNameCap bs st false).1
                - sumState wl st| := abs_sub_le _ _ _
          _ ≤ (n : ℚ) * ((bs.length : ℚ) * (1/100)) + (bs.length : ℚ) * (1/100) := by
              linarith
          _ = ((n + 1 : ℕ) : ℚ) * ((bs.length : ℚ) * (1/100)) := by push_cast; ring

theorem passGo_eq_of_none (cfg : AllocConfig) (quotes : String → Option Snapshot)
    (capsOf : String → Option ℚ) (perNameCap : Option ℚ) :
    ∀ (l : List (String × ℚ × ScoreBreakdown)) (st : RState) (b : Bool),
      (∀ e ∈ l, redistStep cfg quotes capsOf perNameCap st e.1 = none) →
      passGo cfg quotes capsOf perNameCap l st b = (st, b) := by
  intro l
  induction l with
  | nil => intro st b _; rfl
  | cons e rest ih =>
      intro st b h
      have he : redistStep cfg quotes capsOf perNameCap st e.1 = none := h e (by simp)
      simp only [passGo, he]
      exact ih st b (fun x hx => h x (by simp [hx]))

theorem redistLoop_eq_of_none (cfg : AllocConfig) (quotes : String → Option Snapshot)
    (capsOf : String → Option ℚ) (perNameCap : Option ℚ)
    (bs : List (String × ℚ × ScoreBreakdown)) :
    ∀ (fuel : Nat) (st : RState),
      (∀ e ∈ bs, redistStep cfg quotes capsOf perNameCap st e.1 = none) →
      redistLoop cfg quotes capsOf perNameCap bs fuel st = st := by
  intro fuel st h
  cases fuel with
  | zero => rfl
  | succ n =>
      simp only [redistLoop, passGo_eq_of_none cfg quotes capsOf perNameCap bs st false h]
      simp

theorem sum_map_le_add {α : Type} (l : List α) (f g : α → ℚ) (c : ℚ)
    (h : ∀ a ∈ l, f a ≤ g a + c) :
    (l.map f).sum ≤ (l.map g).sum + (l.length : ℚ) * c := by
  induction l with
  | nil => simp
  | cons x xs ih =>
      have hx := h x (by simp)
      have hxs := ih (fun a ha => h a (by simp [ha]))
      simp only [List.map_cons, List.sum_cons, List.length_cons]
      push_cast
      linarith

namespace AllocCtx

theorem capsOf_nonneg (A : AllocCtx) {sym : String} {c : ℚ}
    (hc : A.capsOf sym = some c) : 0 ≤ c := by
  unfold capsOf at hc
  by_cases h : A.cfg.maxPositionWeight > 0
  · rw [if_pos h, Option.some.injEq] at hc
    rw [← hc]
    exact le_max_left _ _
  · rw [if_neg h] at hc; cases hc

theorem alloc1_nonneg (A : AllocCtx) (sym : String) : 0 ≤ A.alloc1 sym := by
  by_cases h : sym ∈ A.wishlist
  · simp only [alloc1, h, if_true]
    cases hc : A.capsOf sym <;> simp only [] <;> exact le_max_left _ _
  · simp [alloc1, h]

theorem alloc1_le_cap (A : AllocCtx) {sym : String} {c : ℚ}
    (hc : A.capsOf sym = some c) : A.alloc1 sym ≤ c := by
  have hc0 := A.capsOf_nonneg hc
  by_cases h : sym ∈ A.wishlist
  · simp only [alloc1, h, if_true, hc]
    exact max_le hc0 (min_le_right _ _)
  · simp [alloc1, h, hc0]

theorem alloc1_le_ideal (A : AllocCtx) (sym : String) :
    A.alloc1 sym ≤ max 0 (A.investableCash * (A.rawW sym / A.totalW)) := by
  by_cases h : sym ∈ A.wishlist
  · simp only [alloc1, h, if_true]
    by_cases hp : A.cfg.maxNewAllocPct > 0
    · simp only [hp, if_true]
      cases hc : A.capsOf sym
      · simp only []
        exact max_le_max (le_refl 0) (min_le_left _ _)
      · simp only []
        exact le_trans (max_le_max (le_refl 0) (min_le_left _ _))
            (max_le_max (le_refl 0) (min_le_left _ _))
    · simp only [hp, if_false]
      cases hc : A.capsOf sym
      · simp only []; exact le_refl _
      · simp only []
        exact max_le_max (le_refl 0) (min_le_left _ _)
  · simp only [alloc1, h, if_false]
    exact le_max_left _ _

theorem alloc2_eq_zero_or (A : AllocCtx) (sym : String) :
    A.alloc2 sym = 0 ∨ (A.alloc2 sym = A.alloc1 sym ∧ A.cfg.minOrderUsd ≤ A.alloc2 sym) := by
  unfold alloc2
  by_cases h : A.alloc1 sym < A.cfg.minOrderUsd
  · left; simp [h]
  · right; rw [if_neg h]; exact ⟨rfl, not_lt.mp h⟩

theorem alloc2_nonneg (A : AllocCtx) (sym : String) : 0 ≤ A.alloc2 sym := by
  rcases A.alloc2_eq_zero_or sym with h | ⟨h, -⟩
  · rw [h]
  · rw [h]; exact A.alloc1_nonneg sym

theorem alloc2_le_alloc1 (A : AllocCtx) (sym : String) : A.alloc2 sym ≤ A.alloc1 sym := by
  rcases A.alloc2_eq_zero_or sym with h | ⟨h, -⟩
  · rw [h]; exact A.alloc1_nonneg sym
  · rw [h]

theorem alloc3_nonneg (A : AllocCtx) (sym : String) : 0 ≤ A.alloc3 sym := by
  unfold alloc3
  by_cases hw : A.cfg.wholeShares
  · simp only [hw, if_true]
    by_cases h : sym ∈ A.wishlist
    · simp only [h, if_true]
      by_cases hz : priceOf A.quotes sym ≤ 0 ∨ A.alloc2 sym ≤ 0
      · simp [hz]
      · push_neg at hz
        simp only [if_neg (by push_neg; exact hz : ¬ (priceOf A.quotes sym ≤ 0 ∨ A.alloc2 sym ≤ 0))]
        apply round2_nonneg
        have h1 : (0 : ℚ) ≤ A.alloc2 sym / priceOf A.quotes sym :=
          div_nonneg (le_of_lt hz.2) (le_of_lt hz.1)
        have h2 : (0 : ℤ) ≤ ⌊A.alloc2 sym / priceOf A.quotes sym⌋ := Int.floor_nonneg.mpr h1
        have h3 : (0 : ℚ) ≤ (⌊A.alloc2 sym / priceOf A.quotes sym⌋ : ℚ) := by exact_mod_cast h2
        exact mul_nonneg h3 (le_of_lt hz.1)
    · simp [h]
  · simp only [hw, if_false]
    exact A.alloc2_nonneg sym

theorem alloc3_le_alloc2_add (A : AllocCtx) (sym : String) :
    A.alloc3 sym ≤ A.alloc2 sym + 1/200 := by
  unfold alloc3
  by_cases hw : A.cfg.wholeShares
  · simp only [hw, if_true]
    by_cases h : sym ∈ A.wishlist
    · simp only [h, if_true]
      by_cases hz : priceOf A.quotes sym ≤ 0 ∨ A.alloc2 sym ≤ 0
      · simp only [hz, if_true]
        have := A.alloc2_nonneg sym
        linarith
      · push_neg at hz
        simp only [if_neg (by push_neg; exact hz : ¬ (priceOf A.quotes sym ≤ 0 ∨ A.alloc2 sym ≤ 0))]
        have hfl : (⌊A.alloc2 sym / priceOf A.quotes sym⌋ : ℚ) * priceOf A.quotes sym
            ≤ A.alloc2 sym := by
          have h1 : (⌊A.alloc2 sym / priceOf A.quotes sym⌋ : ℚ)
              ≤ A.alloc2 sym / priceOf A.quotes sym := Int.floor_le _
          calc (⌊A.alloc2 sym / priceOf A.quotes sym⌋ : ℚ) * priceOf A.quotes sym
              ≤ (A.alloc2 sym / priceOf A.quotes sym) * priceOf A.quotes sym :=
                mul_le_mul_of_nonneg_right h1 (le_of_lt hz.1)
            _ = A.alloc2 sym := div_mul_cancel₀ _ (ne_of_gt hz.1)
        have := round2_le ((⌊A.alloc2 sym / priceOf A.quotes sym⌋ : ℚ) * priceOf A.quotes sym)
        linarith
    · simp only [h, if_false]
      have := A.alloc2_nonneg sym
      linarith
  · rw [if_neg hw]
    linarith

theorem alloc3_le_cap_add (A : AllocCtx) {sym : String} {c : ℚ}
    (hc : A.capsOf sym = some c) : A.alloc3 sym ≤ c + 1/200 := by
  have h1 := A.alloc3_le_alloc2_add sym
  have h2 := A.alloc2_le_alloc1 sym
  have h3 := A.alloc1_le_cap hc
  linarith

theorem leftover0_nonneg (A : AllocCtx) : 0 ≤ A.leftover0 := le_max_left _ _

end AllocCtx

namespace AllocCtx

theorem totalExp_pos (A : AllocCtx) (hexp : ∀ x, 0 ≤ A.expFn x) : 0 < A.totalExp := by
  unfold totalExp
  have h0 : 0 ≤ (A.wishlist.map A.expOf).sum := by
    apply List.sum_nonneg
    intro a ha
    obtain ⟨s, -, rfl⟩ := List.mem_map.mp ha
    exact hexp _
  by_cases h : (A.wishlist.map A.expOf).sum = 0
  · simp [h]
  · simp only [h, if_false]
    exact lt_of_le_of_ne h0 (Ne.symm h)

theorem rawW_nonneg (A : AllocCtx) (hexp : ∀ x, 0 ≤ A.expFn x)
    (hpow : ∀ x y, 0 ≤ A.powFn x y) (sym : String) : 0 ≤ A.rawW sym := by
  have h1 : 0 ≤ A.expOf sym / A.totalExp :=
    div_nonneg (hexp _) (le_of_lt (A.totalExp_pos hexp))
  simp only [rawW]
  split
  · exact mul_nonneg h1 (hpow _ _)
  · exact h1

theorem totalW_pos (A : AllocCtx) (hexp : ∀ x, 0 ≤ A.expFn x)
    (hpow : ∀ x y, 0 ≤ A.powFn x y) : 0 < A.totalW := by
  unfold totalW
  have h0 : 0 ≤ (A.wishlist.map A.rawW).sum := by
    apply List.sum_nonneg
    intro a ha
    obtain ⟨s, -, rfl⟩ := List.mem_map.mp ha
    exact A.rawW_nonneg hexp hpow s
  by_cases h : (A.wishlist.map A.rawW).sum = 0
  · simp [h]
  · simp only [h, if_false]
    exact lt_of_le_of_ne h0 (Ne.symm h)

theorem sum_alloc1_le (A : AllocCtx) (hexp : ∀ x, 0 ≤ A.expFn x)
    (hpow : ∀ x y, 0 ≤ A.powFn x y) (hcash : 0 ≤ A.investableCash) :
    (A.wishlist.map A.alloc1).sum ≤ A.investableCash := by
  have hW := A.totalW_pos hexp hpow
  have step1 : (A.wishlist.map A.alloc1).sum ≤
      (A.wishlist.map (fun sym => max 0 (A.investableCash * (A.rawW sym / A.totalW)))).sum :=
    List.sum_le_sum (fun sym _ => A.alloc1_le_ideal sym)
  have heq : ∀ sym ∈ A.wishlist,
      max 0 (A.investableCash * (A.rawW sym / A.totalW))
        = (A.investableCash / A.totalW) * A.rawW sym := by
    intro sym _
    have h1 : 0 ≤ A.investableCash * (A.rawW sym / A.totalW) :=
      mul_nonneg hcash (div_nonneg (A.rawW_nonneg hexp hpow sym) (le_of_lt hW))
    rw [max_eq_right h1]; ring
  rw [List.map_congr_left heq, List.sum_map_mul_left] at step1
  by_cases h : (A.wishlist.map A.rawW).sum = 0
  · rw [h, mul_zero] at step1
    exact le_trans step1 hcash
  · have htW : A.totalW = (A.wishlist.map A.rawW).sum := by
      unfold totalW; simp [h]
    rw [htW, div_mul_cancel₀ _ h] at step1
    exact step1

theorem sum_alloc2_le (A : AllocCtx) (hexp : ∀ x, 0 ≤ A.expFn x)
    (hpow : ∀ x y, 0 ≤ A.powFn x y) (hcash : 0 ≤ A.investableCash) :
    (A.wishlist.map A.alloc2).sum ≤ A.investableCash :=
  le_trans (List.sum_le_sum (fun sym _ => A.alloc2_le_alloc1 sym))
    (A.sum_alloc1_le hexp hpow hcash)

theorem sum_alloc3_le (A : AllocCtx) (hexp : ∀ x, 0 ≤ A.expFn x)
    (hpow : ∀ x y, 0 ≤ A.powFn x y) (hcash : 0 ≤ A.investableCash) :
    (A.wishlist.map A.alloc3).sum
      ≤ A.investableCash + (A.wishlist.length : ℚ) * (1/200) := by
  have h1 := sum_map_le_add A.wishlist A.alloc3 A.alloc2 (1/200)
    (fun sym _ => A.alloc3_le_alloc2_add sym)
  have h2 := A.sum_alloc2_le hexp hpow hcash
  linarith

/-- The conserved quantity at loop entry differs from the investable cash only
by the whole-share rounding error (at most half a cent per symbol). -/
theorem initState_sum_bound (A : AllocCtx) (hexp : ∀ x, 0 ≤ A.expFn x)
    (hpow : ∀ x y, 0 ≤ A.powFn x y) (hcash : 0 ≤ A.investableCash) :
    |sumState A.wishlist ⟨A.alloc3, A.leftover0⟩ - A.investableCash|
      ≤ (A.wishlist.length : ℚ) * (1/200) := by
  have hnn : (0 : ℚ) ≤ (A.wishlist.length : ℚ) * (1/200) := by positivity
  have hS3 := A.sum_alloc3_le hexp hpow hcash
  unfold sumState leftover0
  simp only []
  rcases le_or_lt (A.wishlist.map A.alloc3).sum A.investableCash with h | h
  · rw [max_eq_right (by linarith)]
    simp only [add_sub_cancel]
    rw [sub_self, abs_zero]
    exact hnn
  · rw [max_eq_left (by linarith)]
    rw [abs_le]
    constructor <;> linarith

end AllocCtx

namespace AllocCtx

/-- Invariant for the position-weight cap: every allocation is non-negative
and within half a cent of its cap headroom. -/
def CapInv (A : AllocCtx) (st : RState) : Prop :=
  0 ≤ st.leftover ∧ ∀ s, 0 ≤ st.alloc s ∧ ∀ c, A.capsOf s = some c → st.alloc s ≤ c + 1/200

theorem capInv_step (A : AllocCtx) :
    ∀ st sym st', redistStep A.cfg A.quotes A.capsOf A.perNameCap st sym = some st' →
      A.CapInv st → A.CapInv st' := by
  intro st sym st' hs h
  obtain ⟨hl, hst⟩ := h
  obtain ⟨add, ha, hlv, hadd_le, hadd_nn, hcap, -, -⟩ := redistStep_spec hs
  constructor
  · rw [hlv]; exact round2_nonneg (by linarith)
  · intro s
    rw [ha]
    unfold updateAt
    by_cases he : s = sym
    · rw [if_pos he]
      subst he
      constructor
      · exact round2_nonneg (add_nonneg (hst s).1 (hadd_nn hl))
      · intro c hc
        have h1 := hcap c hc
        have h2 := round2_le (st.alloc s + add)
        linarith
    · rw [if_neg he]; exact hst s

theorem finalState_capInv (A : AllocCtx) : A.CapInv A.finalState := by
  have hinit : A.CapInv ⟨A.alloc3, A.leftover0⟩ :=
    ⟨A.leftover0_nonneg, fun s => ⟨A.alloc3_nonneg s, fun c hc => A.alloc3_le_cap_add hc⟩⟩
  unfold finalState
  split
  · exact redistLoop_preserve A.cfg A.quotes A.capsOf A.perNameCap A.byScore
      (A.CapInv) (fun _ => True)
      (fun st sym st' _ hs h => A.capInv_step st sym st' hs h)
      (fun _ _ => trivial) 2000 _ hinit
  · exact hinit

/-- Invariant for dust removal (fractional mode): every allocation is zero or
at least the minimum-order floor. -/
def DustInv (A : AllocCtx) (st : RState) : Prop :=
  0 ≤ st.leftover ∧ ∀ s, 0 ≤ st.alloc s ∧ (st.alloc s = 0 ∨ A.cfg.minOrderUsd ≤ st.alloc s)

theorem dustInv_step (A : AllocCtx) (hws : A.cfg.wholeShares = false)
    (hcent : ∃ m : ℤ, A.cfg.minOrderUsd = (m : ℚ) / 100) :
    ∀ st sym st', redistStep A.cfg A.quotes A.capsOf A.perNameCap st sym = some st' →
      A.DustInv st → A.DustInv st' := by
  intro st sym st' hs h
  obtain ⟨hl, hst⟩ := h
  obtain ⟨add, ha, hlv, hadd_le, hadd_nn, -, hmin, -⟩ := redistStep_spec hs
  have hma := hmin hws
  constructor
  · rw [hlv]; exact round2_nonneg (by linarith)
  · intro s
    rw [ha]
    unfold updateAt
    by_cases he : s = sym
    · rw [if_pos he]
      subst he
      constructor
      · exact round2_nonneg (add_nonneg (hst s).1 (hadd_nn hl))
      · right
        obtain ⟨m, hm⟩ := hcent
        rw [hm]
        apply round2_ge_of_cent
        have := (hst s).1
        rw [← hm]
        linarith
    · rw [if_neg he]; exact hst s

theorem alloc3_eq_alloc2_of_frac (A : AllocCtx) (hws : A.cfg.wholeShares = false) :
    A.alloc3 = A.alloc2 := by
  unfold alloc3
  rw [hws]
  simp

theorem finalState_dustInv (A : AllocCtx) (hws : A.cfg.wholeShares = false)
    (hcent : ∃ m : ℤ, A.cfg.minOrderUsd = (m : ℚ) / 100) :
    A.DustInv A.finalState := by
  have hinit : A.DustInv ⟨A.alloc3, A.leftover0⟩ := by
    refine ⟨A.leftover0_nonneg, fun s => ⟨A.alloc3_nonneg s, ?_⟩⟩
    rw [A.alloc3_eq_alloc2_of_frac hws]
    rcases A.alloc2_eq_zero_or s with h | ⟨-, h⟩
    · exact Or.inl h
    · exact Or.inr h
  unfold finalState
  split
  · exact redistLoop_preserve A.cfg A.quotes A.capsOf A.perNameCap A.byScore
      (A.DustInv) (fun _ => True)
      (fun st sym st' _ hs h => A.dustInv_step hws hcent st sym st' hs h)
      (fun _ _ => trivial) 2000 _ hinit
  · exact hinit

/-- Invariant for whole-share mode: every allocation is an integer multiple of
the symbol's price, and zero when the price is not positive. -/
def WholeInv (A : AllocCtx) (st : RState) : Prop :=
  ∀ s, (∃ k : ℤ, st.alloc s = (k : ℚ) * priceOf A.quotes s)
    ∧ (priceOf A.quotes s ≤ 0 → st.alloc s = 0)

theorem wholeInv_step (A : AllocCtx) (hws : A.cfg.wholeShares = true)
    (hprices : ∀ s ∈ A.wishlist, ∃ m : ℤ, priceOf A.quotes s = (m : ℚ) / 100) :
    ∀ st sym st', sym ∈ A.wishlist →
      redistStep A.cfg A.quotes A.capsOf A.perNameCap st sym = some st' →
      A.WholeInv st → A.WholeInv st' := by
  intro st sym st' hmem hs h
  obtain ⟨add, ha, hlv, -, -, -, -, hwh⟩ := redistStep_spec hs
  obtain ⟨hadd, hpos⟩ := hwh hws
  intro s
  rw [ha]
  unfold updateAt
  by_cases he : s = sym
  · rw [if_pos he]
    subst he
    obtain ⟨k, hk⟩ := (h s).1
    obtain ⟨m, hm⟩ := hprices s hmem
    constructor
    · refine ⟨k + 1, ?_⟩
      rw [hadd, hk, hm]
      have hcast : ((k : ℚ)) * ((m : ℚ) / 100) + (m : ℚ) / 100
          = (((k + 1) * m : ℤ) : ℚ) / 100 := by push_cast; ring
      rw [hcast, round2_cent]
      push_cast; ring
    · intro hple
      rw [hadd] at hpos
      linarith
  · rw [if_neg he]; exact h s

theorem init_wholeInv (A : AllocCtx) (hws : A.cfg.wholeShares = true)
    (hprices : ∀ s ∈ A.wishlist, ∃ m : ℤ, priceOf A.quotes s = (m : ℚ) / 100) :
    A.WholeInv ⟨A.alloc3, A.leftover0⟩ := by
  intro s
  simp only []
  unfold alloc3
  rw [hws]
  simp only [if_true]
  by_cases hmem : s ∈ A.wishlist
  · simp only [hmem, if_true]
    by_cases hz : priceOf A.quotes s ≤ 0 ∨ A.alloc2 s ≤ 0
    · simp only [hz, if_true]
      exact ⟨⟨0, by simp⟩, fun _ => by trivial⟩
    · push_neg at hz
      rw [if_neg (by push_neg; exact hz :
        ¬ (priceOf A.quotes s ≤ 0 ∨ A.alloc2 s ≤ 0))]
      obtain ⟨m, hm⟩ := hprices s hmem
      constructor
      · refine ⟨⌊A.alloc2 s / priceOf A.quotes s⌋, ?_⟩
        rw [hm]
        have hcast : ((⌊A.alloc2 s / ((m : ℚ) / 100)⌋ : ℚ)) * ((m : ℚ) / 100)
            = ((⌊A.alloc2 s / ((m : ℚ) / 100)⌋ * m : ℤ) : ℚ) / 100 := by push_cast; ring
        rw [hcast, round2_cent]
      · intro hple
        exact absurd hple (not_le.mpr hz.1)
  · simp only [hmem, if_false]
    exact ⟨⟨0, by simp⟩, fun _ => by trivial⟩

theorem finalState_wholeInv (A : AllocCtx) (hws : A.cfg.wholeShares = true)
    (hprices : ∀ s ∈ A.wishlist, ∃ m : ℤ, priceOf A.quotes s = (m : ℚ) / 100) :
    A.WholeInv A.finalState := by
  have hinit := A.init_wholeInv hws hprices
  have hmem : ∀ e ∈ A.byScore, e.1 ∈ A.wishlist := by
    intro e he
    have h1 : e ∈ A.scored := (sortByRawDesc_perm A.scored).mem_iff.mp he
    obtain ⟨s, hs, rfl⟩ := List.mem_map.mp h1
    exact hs
  unfold finalState
  split
  · exact redistLoop_preserve A.cfg A.quotes A.capsOf A.perNameCap A.byScore
      (A.WholeInv) (fun s => s ∈ A.wishlist)
      (fun st sym st' hS hs h => A.wholeInv_step hws hprices st sym st' hS hs h)
      hmem 2000 _ hinit
  · exact hinit

end AllocCtx

theorem redistStep_none_of_caproom_zero (cfg : AllocConfig)
    (quotes : String → Option Snapshot) (capsOf : String → Option ℚ)
    (perNameCap : Option ℚ) {st : RState} {sym : String} {c : ℚ}
    (hc : capsOf sym = some c) (hle : c ≤ st.alloc sym) :
    redistStep cfg quotes capsOf perNameCap st sym = none := by
  simp only [redistStep]
  cases hroom : roomFor capsOf perNameCap (st.alloc sym) sym with
  | none => rw [roomFor_none hroom] at hc; cases hc
  | some r =>
      have hr := roomFor_le_cap hc hroom
      have hmax : max 0 (c - st.alloc sym) = 0 := max_eq_left (by linarith)
      rw [hmax] at hr
      simp [hr]

namespace AllocCtx

theorem byScore_mem_wishlist (A : AllocCtx) : ∀ e ∈ A.byScore, e.1 ∈ A.wishlist := by
  intro e he
  have h1 : e ∈ A.scored := (sortByRawDesc_perm A.scored).mem_iff.mp he
  obtain ⟨s, hs, rfl⟩ := List.mem_map.mp h1
  exact hs

theorem byScore_length (A : AllocCtx) : A.byScore.length = A.wishlist.length := by
  have h1 := (sortByRawDesc_perm A.scored).length_eq
  unfold byScore
  rw [h1]
  unfold scored
  exact List.length_map _ _

/-- With every cap saturated, the allocator assigns nothing and the whole
investable cash survives as leftover. -/
theorem finalState_caps_saturated (A : AllocCtx)
    (hmw : 0 < A.cfg.maxPositionWeight)
    (hcash : 0 ≤ A.investableCash)
    (hcaps : ∀ sym ∈ A.wishlist, A.cfg.maxPositionWeight * A.denom ≤ A.holdingValues sym) :
    (∀ sym, A.finalState.alloc sym = 0) ∧ A.finalState.leftover = A.investableCash := by
  have hcapsOf : ∀ sym ∈ A.wishlist, A.capsOf sym = some 0 := by
    intro sym h
    unfold capsOf
    rw [if_pos hmw]
    congr 1
    exact max_eq_left (by linarith [hcaps sym h])
  have halloc1 : ∀ sym, A.alloc1 sym = 0 := by
    intro sym
    by_cases h : sym ∈ A.wishlist
    · exact le_antisymm (by simpa using A.alloc1_le_cap (hcapsOf sym h)) (A.alloc1_nonneg sym)
    · simp [alloc1, h]
  have halloc2 : ∀ sym, A.alloc2 sym = 0 := by
    intro sym
    unfold alloc2
    rw [halloc1 sym]
    split <;> rfl
  have halloc3 : ∀ sym, A.alloc3 sym = 0 := by
    intro sym
    unfold alloc3
    by_cases hw : A.cfg.wholeShares
    · simp only [hw, if_true]
      by_cases h : sym ∈ A.wishlist
      · simp only [h, if_true]
        rw [halloc2 sym, if_pos (Or.inr (le_refl 0))]
      · simp [h]
    · rw [if_neg hw]
      exact halloc2 sym
  have hsum : (A.wishlist.map A.alloc3).sum = 0 := by
    apply List.sum_eq_zero
    intro x hx
    obtain ⟨s, -, rfl⟩ := List.mem_map.mp hx
    exact halloc3 s
  have hleft : A.leftover0 = A.investableCash := by
    unfold leftover0
    rw [hsum, sub_zero, max_eq_right hcash]
  have hnone : ∀ e ∈ A.byScore,
      redistStep A.cfg A.quotes A.capsOf A.perNameCap ⟨A.alloc3, A.leftover0⟩ e.1 = none := by
    intro e he
    have hs := A.byScore_mem_wishlist e he
    exact redistStep_none_of_caproom_zero A.cfg A.quotes A.capsOf A.perNameCap
      (hcapsOf e.1 hs) (le_of_eq (halloc3 e.1).symm)
  have hfin : A.finalState = ⟨A.alloc3, A.leftover0⟩ := by
    unfold finalState
    split
    · exact redistLoop_eq_of_none _ _ _ _ _ 2000 _ hnone
    · rfl
  rw [hfin]
  exact ⟨halloc3, hleft⟩

/-- The loop preserves the cash balance up to one cent per rounding step. -/
theorem finalState_sum_bound (A : AllocCtx) (hnd : A.wishlist.Nodup)
    (hexp : ∀ x, 0 ≤ A.expFn x) (hpow : ∀ x y, 0 ≤ A.powFn x y)
    (hcash : 0 ≤ A.investableCash) :
    |sumState A.wishlist A.finalState - A.investableCash|
      ≤ 2000 * ((A.wishlist.length : ℚ) * (1/100))
        + (A.wishlist.length : ℚ) * (1/200) := by
  have hinit := A.initState_sum_bound hexp hpow hcash
  have hlen : ((A.byScore.length : ℚ)) = ((A.wishlist.length : ℚ)) := by
    exact_mod_cast congrArg Nat.cast A.byScore_length
  have hnn : (0 : ℚ) ≤ 2000 * ((A.wishlist.length : ℚ) * (1/100)) := by positivity
  unfold finalState
  split
  · have hdrift := redistLoop_drift A.cfg A.quotes A.capsOf A.perNameCap hnd
      A.byScore_mem_wishlist 2000 ⟨A.alloc3, A.leftover0⟩
    rw [hlen] at hdrift
    calc |sumState A.wishlist (redistLoop A.cfg A.quotes A.capsOf A.perNameCap A.byScore
            2000 ⟨A.alloc3, A.leftover0⟩) - A.investableCash|
        ≤ |sumState A.wishlist (redistLoop A.cfg A.quotes A.capsOf A.perNameCap A.byScore
              2000 ⟨A.alloc3, A.leftover0⟩) - sumState A.wishlist ⟨A.alloc3, A.leftover0⟩|
          + |sumState A.wishlist ⟨A.alloc3, A.leftover0⟩ - A.investableCash| :=
          abs_sub_le _ _ _
      _ ≤ 2000 * ((A.wishlist.length : ℚ) * (1/100))
          + (A.wishlist.length : ℚ) * (1/200) := by
          push_cast at hdrift
          linarith
  · exact le_trans hinit (by linarith)

end AllocCtx

unseal Rat.mul Rat.inv Rat.add Rat.sub Rat.ofScientific

set_option maxRecDepth 40000

/-- `math.exp` instantiated for runs in which every softmax argument is `0`
(equal raw scores): the true exponential satisfies `exp 0 = 1`. -/
def expOne : ℚ → ℚ := fun _ => 1

/-- Power function instantiation for runs in which the price tilt never fires
(tilt `0` or no positive prices); its value is then irrelevant. -/
def powOne : ℚ → ℚ → ℚ := fun _ _ => 1

/-- **C4, counterexample.**  The claim says an absent snapshot scores 40 with
*every* named component contribution equal to 0; in the code the `risk`
component of that branch is `-6.0`, not 0. -/
theorem c4_counterexample : (scoreCompany none 0 false).risk ≠ 0 := by decide

/-- **C4, amended.**  Scoring a symbol with an absent snapshot returns exactly
score 40 with quality, growth, value, income and affordability contributions 0,
a risk contribution of `-6` (not 0), no raw score, no concentration component,
and the conservative-default note. -/
theorem c4_amended (cw : ℚ) (ws : Bool) :
    scoreCompany none cw ws =
      { score := 40, scoreRaw := none
        quality := 0, growth := 0, value := 0, income := 0, risk := -6, afford := 0
        concentration := none
        notes := ["No Yahoo snapshot available; score is conservative default."] } := rfl

/-- **C10.**  A numeric fundamental field that is present with value exactly 0
is indistinguishable from an absent field (`_safe_float` then falsy-guards):
scrubbing all zero-valued numeric fields never changes the score breakdown.
Moreover the quality clamp formula at a true profit margin of 0 would give
`-2.5`, which is what a zero margin would contribute if it were not guarded. -/
theorem c10_zero_equals_missing (q : Snapshot) (cw : ℚ) (ws : Bool) :
    scoreCompany (some (scrubZeros q)) cw ws = scoreCompany (some q) cw ws ∧
    clampQ ((0 - 0.05) / 0.20) (-1) 1 * 10 = -(5/2) := by
  constructor
  · simp only [scoreCompany, scrubZeros, qval_zeroToNone]
  · norm_num [clampQ]

/-- **C9.**  The allocator is a pure function (identical inputs give identical
outputs), and the `by_score` ordering is a permutation of `scored`, sorted by
descending raw score, with every raw-score tie class kept in original wishlist
order (stability), which is the tie-breaking rule the claim states. -/
theorem c9_determinism :
    (∀ (expFn : ℚ → ℚ) (powFn : ℚ → ℚ → ℚ) (cfg : AllocConfig) (cash : ℚ)
        (wl : List String) (quotes : String → Option Snapshot)
        (hv : String → ℚ) (htv : ℚ),
      allocateCashScored expFn powFn cfg cash wl quotes hv htv
        = allocateCashScored expFn powFn cfg cash wl quotes hv htv)
    ∧ (∀ l, List.Perm (sortByRawDesc l) l)
    ∧ (∀ l, List.Pairwise (fun a b => b.2.1 ≤ a.2.1) (sortByRawDesc l))
    ∧ (∀ (l : List (String × ℚ × ScoreBreakdown)) (r : ℚ),
        (sortByRawDesc l).filter (fun e => decide (e.2.1 = r))
          = l.filter (fun e => decide (e.2.1 = r))) :=
  ⟨fun _ _ _ _ _ _ _ _ => rfl, sortByRawDesc_perm, sortByRawDesc_sorted,
    fun l r => sortByRawDesc_stable r l⟩

/-- **C5, counterexample.**  The claim says yield input `-0.01` (with no usable
dividend rate) normalizes to `none` with `suspicious = true`; in the code a
non-positive yield with no usable rate falls through to `(None, False)` — the
`out < 0` branch is unreachable. -/
theorem c5_counterexample :
    normalizeDividendYield (-1/100) 0 0 ≠ ((none : Option ℚ), true) := by decide

/-- **C5, amended.**  The four test vectors with `-0.01 → (none, false)`
(instead of the claimed `(none, true)`), and the general rules: a percent-like
yield in `(1, 100]` is divided by 100, any other positive yield is used as-is,
a missing yield with positive rate and price derives `rate / price`, anything
else yields `(none, false)`; every returned yield is strictly positive (so the
negative-result branch never fires), and a returned yield is flagged
suspicious exactly when it exceeds `0.25`. -/
theorem c5_amended (dy dr p : ℚ) :
    normalizeDividendYield 5 0 0 = (some (5/100), false)
    ∧ normalizeDividendYield (5/100) 0 0 = (some (5/100), false)
    ∧ normalizeDividendYield (-1/100) 0 0 = (none, false)
    ∧ normalizeDividendYield (30/100) 0 0 = (some (30/100), true)
    ∧ (0 < dy → 1 < dy → dy ≤ 100 →
        normalizeDividendYield dy dr p = (some (dy/100), decide (dy/100 > 25/100)))
    ∧ (0 < dy → ¬ (1 < dy ∧ dy ≤ 100) →
        normalizeDividendYield dy dr p = (some dy, decide (dy > 25/100)))
    ∧ (dy ≤ 0 → 0 < dr → 0 < p →
        normalizeDividendYield dy dr p = (some (dr/p), decide (dr/p > 25/100)))
    ∧ (dy ≤ 0 → ¬ (0 < dr ∧ 0 < p) → normalizeDividendYield dy dr p = (none, false))
    ∧ (∀ v, (normalizeDividendYield dy dr p).1 = some v → 0 < v) := by
  have case1 : ∀ dy dr p : ℚ, 0 < dy → 1 < dy → dy ≤ 100 →
      normalizeDividendYield dy dr p = (some (dy/100), decide (dy/100 > 25/100)) := by
    intro a b c h0 h1 h2
    have hb : 1 < a ∧ a ≤ 100 := ⟨h1, h2⟩
    have hpos : ¬ (a / 100 < 0) := by push_neg; linarith
    simp only [normalizeDividendYield, gt_iff_lt, h0, if_true]
    rw [if_pos hb, if_neg hpos]
  have case2 : ∀ dy dr p : ℚ, 0 < dy → ¬ (1 < dy ∧ dy ≤ 100) →
      normalizeDividendYield dy dr p = (some dy, decide (dy > 25/100)) := by
    intro a b c h0 h1
    have hpos : ¬ (a < 0) := by push_neg; linarith
    simp only [normalizeDividendYield, gt_iff_lt, h0, if_true]
    rw [if_neg h1, if_neg hpos]
  have case3 : ∀ dy dr p : ℚ, dy ≤ 0 → 0 < dr → 0 < p →
      normalizeDividendYield dy dr p = (some (dr/p), decide (dr/p > 25/100)) := by
    intro a b c h0 h1 h2
    have hny : ¬ (0 < a) := by push_neg; linarith
    have hb : 0 < b ∧ 0 < c := ⟨h1, h2⟩
    have hpos : ¬ (b / c < 0) := by push_neg; exact le_of_lt (div_pos h1 h2)
    simp only [normalizeDividendYield, gt_iff_lt, if_neg hny, if_pos hb, if_neg hpos]
  have case4 : ∀ dy dr p : ℚ, dy ≤ 0 → ¬ (0 < dr ∧ 0 < p) →
      normalizeDividendYield dy dr p = (none, false) := by
    intro a b c h0 h1
    have hny : ¬ (0 < a) := by push_neg; linarith
    simp only [normalizeDividendYield, gt_iff_lt, if_neg hny, if_neg h1]
  refine ⟨by decide, by decide, by decide, by decide,
    case1 dy dr p, case2 dy dr p, case3 dy dr p, case4 dy dr p, ?_⟩
  intro v hv
  by_cases h0 : 0 < dy
  · by_cases hb : 1 < dy ∧ dy ≤ 100
    · rw [case1 dy dr p h0 hb.1 hb.2] at hv
      simp only [Option.some.injEq] at hv
      rw [← hv]; linarith
    · rw [case2 dy dr p h0 hb] at hv
      simp only [Option.some.injEq] at hv
      rw [← hv]; exact h0
  · push_neg at h0
    by_cases hb : 0 < dr ∧ 0 < p
    · rw [case3 dy dr p h0 hb.1 hb.2] at hv
      simp only [Option.some.injEq] at hv
      rw [← hv]; exact div_pos hb.1 hb.2
    · rw [case4 dy dr p h0 hb] at hv
      simp at hv

/-- **C1, counterexample.**  A pre-existing overweight position violates the
claim as stated: with holdings of 1000 in "A", a post-trade total of 1100 and
the default 20% cap, the cap value is 220, the allocator (correctly) allocates
0 — but current value + allocation = 1000 far exceeds 220, so the claimed
inequality fails even with a generous one-unit rounding epsilon. -/
theorem c1_counterexample :
    (allocateCashScored expOne powOne defaultConfig 100 ["A"] (fun _ => none)
        (fun s => if s = "A" then 1000 else 0) 1000).alloc "A" = 0
    ∧ ¬ ((if "A" = "A" then (1000 : ℚ) else 0)
          + (allocateCashScored expOne powOne defaultConfig 100 ["A"] (fun _ => none)
              (fun s => if s = "A" then 1000 else 0) 1000).alloc "A"
        ≤ defaultConfig.maxPositionWeight * (1000 + 100) + 1) := by
  constructor <;> decide

/-- **C1, amended.**  The allocator never *pushes* a position above the cap:
for every input with positive post-trade total and `max_position_weight`
in `(0, 1]`, current value + allocation stays below
`max(cap value, current value)` up to half a cent of rounding — i.e. the cap
binds the increment, not positions that already exceed it. -/
theorem c1_amended (expFn : ℚ → ℚ) (powFn : ℚ → ℚ → ℚ) (cfg : AllocConfig)
    (cash : ℚ) (wl : List String) (quotes : String → Option Snapshot)
    (hv : String → ℚ) (htv : ℚ)
    (hw : 0 < cfg.maxPositionWeight) (_hw1 : cfg.maxPositionWeight ≤ 1)
    (hpost : 0 < htv + cash) (sym : String) :
    hv sym + (allocateCashScored expFn powFn cfg cash wl quotes hv htv).alloc sym
      ≤ max (cfg.maxPositionWeight * (htv + cash)) (hv sym) + 1/200 := by
  have hdenom : (AllocCtx.mk expFn powFn cfg cash wl quotes hv htv).denom = htv + cash := by
    unfold AllocCtx.denom
    simp only []
    rw [if_pos hpost]
  have hcaps : (AllocCtx.mk expFn powFn cfg cash wl quotes hv htv).capsOf sym
      = some (max 0 (cfg.maxPositionWeight * (htv + cash) - hv sym)) := by
    unfold AllocCtx.capsOf
    rw [hdenom]
    simp only []
    rw [if_pos hw]
  have hinv := (AllocCtx.mk expFn powFn cfg cash wl quotes hv htv).finalState_capInv
  have hcap_le := (hinv.2 sym).2 _ hcaps
  have halloc : (allocateCashScored expFn powFn cfg cash wl quotes hv htv).alloc sym
      = (AllocCtx.mk expFn powFn cfg cash wl quotes hv htv).finalState.alloc sym := rfl
  rw [halloc]
  have hmax : hv sym + max 0 (cfg.maxPositionWeight * (htv + cash) - hv sym)
      = max (cfg.maxPositionWeight * (htv + cash)) (hv sym) := by
    rcases le_total (cfg.maxPositionWeight * (htv + cash)) (hv sym) with h | h
    · rw [max_eq_left (by linarith), max_eq_right h]; ring
    · rw [max_eq_right (by linarith), max_eq_left h]; ring
  linarith

/-- **C1, witness.** -/
theorem c1_witness :
    (fun _ : String => (0 : ℚ)) "A"
      + (allocateCashScored expOne powOne defaultConfig 100 ["A"] (fun _ => none)
          (fun _ => 0) 0).alloc "A"
      ≤ max (defaultConfig.maxPositionWeight * (0 + 100)) ((fun _ : String => (0 : ℚ)) "A")
        + 1/200 :=
  c1_amended expOne powOne defaultConfig 100 ["A"] (fun _ => none) (fun _ => 0) 0
    (by decide) (by decide) (by norm_num) "A"

/-- **C8.**  The redistribution loop always terminates: it is a fuel-bounded
recursion (2000 passes), and a pass that makes no progress is a fixed point of
the whole loop (first conjunct).  When every symbol's position-weight cap room
is zero, the allocator assigns 0 to every symbol and reports the entire
investable cash as `unallocated_cash` (second and third conjuncts). -/
theorem c8_termination_saturated (expFn : ℚ → ℚ) (powFn : ℚ → ℚ → ℚ)
    (cfg : AllocConfig) (cash : ℚ) (wl : List String)
    (quotes : String → Option Snapshot) (hv : String → ℚ) (htv : ℚ)
    (hmw : 0 < cfg.maxPositionWeight) (hcash : 0 ≤ cash)
    (hcaps : ∀ sym ∈ wl,
      cfg.maxPositionWeight * (if htv + cash > 0 then htv + cash else 1) ≤ hv sym) :
    (∀ (quotes' : String → Option Snapshot) (bs : List (String × ℚ × ScoreBreakdown))
        (capsOf : String → Option ℚ) (perNameCap : Option ℚ) (fuel : Nat) (st : RState),
        passGo cfg quotes' capsOf perNameCap bs st false = (st, false) →
        redistLoop cfg quotes' capsOf perNameCap bs fuel st = st)
    ∧ (∀ sym, (allocateCashScored expFn powFn cfg cash wl quotes hv htv).alloc sym = 0)
    ∧ (allocateCashScored expFn powFn cfg cash wl quotes hv htv).unallocatedCash
        = round2 cash := by
  have hsat := (AllocCtx.mk expFn powFn cfg cash wl quotes hv htv).finalState_caps_saturated
    hmw hcash hcaps
  refine ⟨?_, ?_, ?_⟩
  · intro quotes' bs capsOf perNameCap fuel st hp
    cases fuel with
    | zero => rfl
    | succ n =>
        simp only [redistLoop, hp]
        simp
  · intro sym
    exact hsat.1 sym
  · show round2 (AllocCtx.mk expFn powFn cfg cash wl quotes hv htv).finalState.leftover
        = round2 cash
    rw [hsat.2]

/-- **C8, witness.** -/
theorem c8_witness :
    (allocateCashScored expOne powOne defaultConfig 100 ["A"] (fun _ => none)
        (fun _ => 1000) 1000).alloc "A" = 0
    ∧ (allocateCashScored expOne powOne defaultConfig 100 ["A"] (fun _ => none)
        (fun _ => 1000) 1000).unallocatedCash = round2 100 := by
  have h := c8_termination_saturated expOne powOne defaultConfig 100 ["A"] (fun _ => none)
    (fun _ => 1000) 1000 (by decide) (by norm_num)
    (by intro sym _
        exact (by decide :
          (defaultConfig.maxPositionWeight * if (1000 : ℚ) + 100 > 0 then 1000 + 100 else 1)
            ≤ 1000))
  exact ⟨h.2.1 "A", h.2.2⟩

/-- Whole-unit configuration used in the C6 counterexample (defaults except
whole-unit mode on and price tilt off). -/
def cfgC6 : AllocConfig :=
  { maxPositionWeight := 0.20, wholeShares := true, minOrderUsd := 25
    priceTilt := 0, scoreTemperature := 10, maxNewAllocPct := 0.40 }

/-- A single quoted symbol "A" priced at 8 with no fundamentals. -/
def quotesC6 : String → Option Snapshot := fun s =>
  if s = "A" then some
    { price := some 8, trailingPE := none, forwardPE := none, dividendYield := none
      beta := none, returnOnEquity := none, profitMargins := none, operatingMargins := none
      revenueGrowth := none, earningsGrowth := none, debtToEquity := none, payoutRatio := none
      country := none, dividendYieldSuspicious := false }
  else none

/-- **C6, counterexample.**  In whole-unit mode dust can survive: with cash 65,
price 8 and a cap headroom of 26, the first pass allocates 26 (above the
25-unit floor), whole-share rounding cuts it to 3 shares = 24, and no
redistribution tops it up (room 2 < price 8) — the returned allocation 24 lies
strictly between 0 and the minimum-order floor 25. -/
theorem c6_counterexample :
    0 < (allocateCashScored expOne powOne cfgC6 65 ["A"] quotesC6
        (fun s => if s = "A" then 7 else 0) 100).alloc "A"
    ∧ (allocateCashScored expOne powOne cfgC6 65 ["A"] quotesC6
        (fun s => if s = "A" then 7 else 0) 100).alloc "A" < cfgC6.minOrderUsd := by
  constructor <;> decide

/-- **C6, amended.**  In fractional mode (whole-unit rounding disabled), and
with a whole-cent minimum-order floor, no returned allocation lies strictly
between 0 and the floor: dust is zeroed in the first pass and every
redistribution increment is at least the floor.  (In whole-unit mode the
rounding to share multiples can leave a sub-floor allocation, as the
counterexample shows.) -/
theorem c6_amended (expFn : ℚ → ℚ) (powFn : ℚ → ℚ → ℚ) (cfg : AllocConfig)
    (cash : ℚ) (wl : List String) (quotes : String → Option Snapshot)
    (hv : String → ℚ) (htv : ℚ)
    (hws : cfg.wholeShares = false)
    (hcent : ∃ m : ℤ, cfg.minOrderUsd = (m : ℚ) / 100) (sym : String) :
    ¬ (0 < (allocateCashScored expFn powFn cfg cash wl quotes hv htv).alloc sym
        ∧ (allocateCashScored expFn powFn cfg cash wl quotes hv htv).alloc sym
            < cfg.minOrderUsd) := by
  have hinv := (AllocCtx.mk expFn powFn cfg cash wl quotes hv htv).finalState_dustInv hws hcent
  intro hcon
  obtain ⟨h1, h2⟩ := hcon
  have halloc : (allocateCashScored expFn powFn cfg cash wl quotes hv htv).alloc sym
      = (AllocCtx.mk expFn powFn cfg cash wl quotes hv htv).finalState.alloc sym := rfl
  rw [halloc] at h1 h2
  rcases (hinv.2 sym).2 with h | h
  · rw [h] at h1; exact lt_irrefl 0 h1
  · linarith

/-- **C6, witness.** -/
theorem c6_witness :
    ¬ (0 < (allocateCashScored expOne powOne defaultConfig 100 ["A"] (fun _ => none)
          (fun _ => 0) 0).alloc "A"
        ∧ (allocateCashScored expOne powOne defaultConfig 100 ["A"] (fun _ => none)
            (fun _ => 0) 0).alloc "A" < defaultConfig.minOrderUsd) :=
  c6_amended expOne powOne defaultConfig 100 ["A"] (fun _ => none) (fun _ => 0) 0
    rfl ⟨2500, by norm_num [defaultConfig]⟩ "A"

/-- The C7 scenario quotes: "A" priced 300, "B" priced 450 with a small
dividend yield (income +3) that exactly offsets its whole-unit affordability
penalty (afford −3), so both raw scores are exactly 50 and the softmax weights
are exactly equal at any temperature. -/
def quotesC7 : String → Option Snapshot := fun s =>
  if s = "A" then some
    { price := some 300, trailingPE := none, forwardPE := none, dividendYield := none
      beta := none, returnOnEquity := none, profitMargins := none, operatingMargins := none
      revenueGrowth := none, earningsGrowth := none, debtToEquity := none, payoutRatio := none
      country := none, dividendYieldSuspicious := false }
  else if s = "B" then some
    { price := some 450, trailingPE := none, forwardPE := none, dividendYield := some 0.018
      beta := none, returnOnEquity := none, profitMargins := none, operatingMargins := none
      revenueGrowth := none, earningsGrowth := none, debtToEquity := none, payoutRatio := none
      country := none, dividendYieldSuspicious := false }
  else none

/-- Whole-unit scenario configuration with the per-name new-money cap
disabled (and price tilt off). -/
def cfgC7 : AllocConfig :=
  { maxPositionWeight := 0.20, wholeShares := true, minOrderUsd := 25
    priceTilt := 0, scoreTemperature := 10, maxNewAllocPct := 0 }

/-- Whole-unit scenario configuration with the default 0.40 per-name
new-money cap. -/
def cfgC7def : AllocConfig :=
  { maxPositionWeight := 0.20, wholeShares := true, minOrderUsd := 25
    priceTilt := 0, scoreTemperature := 10, maxNewAllocPct := 0.40 }

/-- The allocator context of the default-config C7 scenario run (used to state
the remaining head-room of each symbol with the model's own room formula). -/
def ctxC7def : AllocCtx :=
  AllocCtx.mk expOne powOne cfgC7def 1000 ["A", "B"] quotesC7 (fun _ => 0) 9000

/-- **C7, counterexample.**  In the 1000-cash / 300-450 scenario under the
*default* configuration, the 0.40 new-money cap (400) blocks "B" from ever
buying one 450-share and blocks a second 300-share for "A": the run ends with
allocations (300, 0) and leftover 700, while both symbols still have positive
remaining room (100 resp. 400) — so the leftover is NOT below the cheapest
price (300) among symbols with remaining room, contradicting the claimed
bound.  (Each allocation is still a whole multiple of its price.) -/
theorem c7_counterexample :
    (allocateCashScored expOne powOne cfgC7def 1000 ["A", "B"] quotesC7 (fun _ => 0) 9000).alloc "A" = 300
    ∧ (allocateCashScored expOne powOne cfgC7def 1000 ["A", "B"] quotesC7 (fun _ => 0) 9000).alloc "B" = 0
    ∧ (allocateCashScored expOne powOne cfgC7def 1000 ["A", "B"] quotesC7 (fun _ => 0) 9000).unallocatedCash = 700
    ∧ roomFor ctxC7def.capsOf ctxC7def.perNameCap 300 "A" = some 100
    ∧ roomFor ctxC7def.capsOf ctxC7def.perNameCap 0 "B" = some 400
    ∧ priceOf quotesC7 "A" = 300 ∧ priceOf quotesC7 "B" = 450
    ∧ ¬ ((700 : ℚ) < 300) := by
  refine ⟨by decide, by decide, by decide, by decide, by decide, by decide, by decide, by decide⟩

/-- **C7, amended.**  (1) In whole-unit mode, whenever every wishlist price is
a whole number of cents, every returned allocation is an integer multiple of
its symbol's price, and 0 when the price is unknown or non-positive.  (2) In
the 1000-cash / 300-450 equal-score scenario the claimed leftover bound holds
when the per-name new-money cap does not bind (max_new_alloc_pct = 0): the
allocator buys one share of each (300 and 450), and the leftover 250 is
strictly below the cheapest price (300) among the symbols, both of which still
have cap room. -/
theorem c7_amended :
    (∀ (expFn : ℚ → ℚ) (powFn : ℚ → ℚ → ℚ) (cfg : AllocConfig) (cash : ℚ)
        (wl : List String) (quotes : String → Option Snapshot)
        (hv : String → ℚ) (htv : ℚ),
      cfg.wholeShares = true →
      (∀ s ∈ wl, ∃ m : ℤ, priceOf quotes s = (m : ℚ) / 100) →
      ∀ sym, (∃ k : ℤ, (allocateCashScored expFn powFn cfg cash wl quotes hv htv).alloc sym
                = (k : ℚ) * priceOf quotes sym)
        ∧ (priceOf quotes sym ≤ 0 →
            (allocateCashScored expFn powFn cfg cash wl quotes hv htv).alloc sym = 0))
    ∧ ((allocateCashScored expOne powOne cfgC7 1000 ["A", "B"] quotesC7 (fun _ => 0) 9000).alloc "A" = 300
        ∧ (allocateCashScored expOne powOne cfgC7 1000 ["A", "B"] quotesC7 (fun _ => 0) 9000).alloc "B" = 450
        ∧ (allocateCashScored expOne powOne cfgC7 1000 ["A", "B"] quotesC7 (fun _ => 0) 9000).unallocatedCash = 250
        ∧ (250 : ℚ) < min (priceOf quotesC7 "A") (priceOf quotesC7 "B")
        ∧ (allocateCashScored expOne powOne cfgC7 1000 ["A", "B"] quotesC7 (fun _ => 0) 9000).alloc "A"
            < cfgC7.maxPositionWeight * (9000 + 1000)
        ∧ (allocateCashScored expOne powOne cfgC7 1000 ["A", "B"] quotesC7 (fun _ => 0) 9000).alloc "B"
            < cfgC7.maxPositionWeight * (9000 + 1000)) := by
  constructor
  · intro expFn powFn cfg cash wl quotes hv htv hws hprices sym
    have hinv := (AllocCtx.mk expFn powFn cfg cash wl quotes hv htv).finalState_wholeInv
      hws hprices
    exact hinv sym
  · refine ⟨by decide, by decide, by decide, by decide, by decide, by decide⟩

/-- **C7, witness.** -/
theorem c7_witness :
    (∃ k : ℤ, (allocateCashScored expOne powOne cfgC7 1000 ["A", "B"] quotesC7
        (fun _ => 0) 9000).alloc "A" = (k : ℚ) * priceOf quotesC7 "A")
    ∧ (priceOf quotesC7 "A" ≤ 0 →
        (allocateCashScored expOne powOne cfgC7 1000 ["A", "B"] quotesC7
          (fun _ => 0) 9000).alloc "A" = 0) :=
  c7_amended.1 expOne powOne cfgC7 1000 ["A", "B"] quotesC7 (fun _ => 0) 9000 rfl
    (by intro s hs
        rcases List.mem_cons.mp hs with rfl | hs2
        · exact ⟨30000, by decide⟩
        · rcases List.mem_cons.mp hs2 with rfl | hs3
          · exact ⟨45000, by decide⟩
          · cases hs3)
    "A"

/-- Configuration for the C2 counterexample (position cap 25%, fractional
mode, default floor 25, tilt off, new-money cap off). -/
def cfgC2 : AllocConfig :=
  { maxPositionWeight := 0.25, wholeShares := false, minOrderUsd := 25
    priceTilt := 0, scoreTemperature := 10, maxNewAllocPct := 0 }

/-- Holding values so that, with `denom = 539.21875 + 260.78125 = 800` and
cap value `0.25 * 800 = 200`, the cap headrooms are
A ↦ 90.1953125, B ↦ 40.1953125, D ↦ 200, E ↦ 0.  Every value is a dyadic
rational with few mantissa bits, so IEEE-754 doubles represent all of them,
and their sums, differences and the `0.25 * _` products, exactly. -/
def hvC2 : String → ℚ := fun s =>
  if s = "A" then 109.8046875 else if s = "B" then 159.8046875
  else if s = "E" then 200 else 0

/-- **C2, counterexample.**  The "in particular the allocator never allocates
more cash in total than the investable cash" part of the claim fails without
any rounding tie: with cash 260.78125 and equal weights 1/4, pass one gives
A and D their ideal 65.1953125, B its full headroom 40.1953125, E nothing,
leaving leftover 90.1953125.  The redistribution step on A adds its remaining
headroom 25 and rounds allocation `round2(90.1953125) = 90.20` and leftover
`round2(65.1953125) = 65.20` *independently* — both round upward, since the
two fractional parts (0.0053125 each) need not be complementary when the
running amounts are not whole cents.  The step on D then absorbs the leftover:
`round2(130.3953125) = 130.40`, rounding upward a third time.  Total
allocations 90.20 + 40.1953125 + 130.40 = 260.7953125 > 260.78125, with
unallocated_cash 0 — an overshoot of 0.0140625.  Every intermediate quantity
is a dyadic rational computed exactly by binary doubles, and every rounded
value sits 1/32 of a cent away from the nearest half-cent tie, so CPython's
`round(_, 2)` makes the same decisions and the overshoot reproduces verbatim
in the source program. -/
theorem c2_counterexample :
    (["A", "B", "D", "E"].map (allocateCashScored expOne powOne cfgC2 260.78125
        ["A", "B", "D", "E"] (fun _ => none) hvC2 539.21875).alloc).sum = 260.7953125
    ∧ (allocateCashScored expOne powOne cfgC2 260.78125 ["A", "B", "D", "E"]
        (fun _ => none) hvC2 539.21875).unallocatedCash = 0
    ∧ ¬ ((["A", "B", "D", "E"].map (allocateCashScored expOne powOne cfgC2 260.78125
          ["A", "B", "D", "E"] (fun _ => none) hvC2 539.21875).alloc).sum
          + (allocateCashScored expOne powOne cfgC2 260.78125 ["A", "B", "D", "E"]
              (fun _ => none) hvC2 539.21875).unallocatedCash
        ≤ 260.78125) := by
  refine ⟨by decide, by decide, by decide⟩

/-- **C2, amended.**  Allocations plus the reported unallocated cash equal the
investable cash within accumulated rounding error only: every redistribution
increment rounds the allocation and the leftover independently to cents
(at most 1/100 drift per increment, at most 2000·|wishlist| increments),
whole-share rounding adds at most half a cent per symbol, and the reported
`unallocated_cash` is itself rounded (half a cent).  In particular the total
allocation can exceed the investable cash, but only by such rounding amounts
(the counterexample exceeds it by 0.0140625, three upward cent-roundings). -/
theorem c2_amended (expFn : ℚ → ℚ) (powFn : ℚ → ℚ → ℚ) (cfg : AllocConfig)
    (cash : ℚ) (wl : List String) (quotes : String → Option Snapshot)
    (hv : String → ℚ) (htv : ℚ)
    (hnd : wl.Nodup) (hcash : 0 ≤ cash)
    (hexp : ∀ x, 0 ≤ expFn x) (hpow : ∀ x y, 0 ≤ powFn x y) :
    |(wl.map (allocateCashScored expFn powFn cfg cash wl quotes hv htv).alloc).sum
        + (allocateCashScored expFn powFn cfg cash wl quotes hv htv).unallocatedCash - cash|
      ≤ 20 * (wl.length : ℚ) + ((wl.length : ℚ) + 1) * (1/200) := by
  have hsum : |sumState wl (AllocCtx.mk expFn powFn cfg cash wl quotes hv htv).finalState - cash|
      ≤ 2000 * ((wl.length : ℚ) * (1/100)) + (wl.length : ℚ) * (1/200) :=
    (AllocCtx.mk expFn powFn cfg cash wl quotes hv htv).finalState_sum_bound hnd hexp hpow hcash
  have hr := abs_round2_sub_le (AllocCtx.mk expFn powFn cfg cash wl quotes hv htv).finalState.leftover
  have hkey : (wl.map (allocateCashScored expFn powFn cfg cash wl quotes hv htv).alloc).sum
        + (allocateCashScored expFn powFn cfg cash wl quotes hv htv).unallocatedCash - cash
      = (sumState wl (AllocCtx.mk expFn powFn cfg cash wl quotes hv htv).finalState - cash)
        + (round2 (AllocCtx.mk expFn powFn cfg cash wl quotes hv htv).finalState.leftover
            - (AllocCtx.mk expFn powFn cfg cash wl quotes hv htv).finalState.leftover) := by
    show (wl.map (AllocCtx.mk expFn powFn cfg cash wl quotes hv htv).finalState.alloc).sum
        + round2 (AllocCtx.mk expFn powFn cfg cash wl quotes hv htv).finalState.leftover - cash
      = _
    unfold sumState
    ring
  rw [hkey]
  refine le_trans (abs_add _ _) ?_
  linarith

/-- **C2, witness.** -/
theorem c2_witness :
    |((["A"].map (allocateCashScored expOne powOne defaultConfig 100 ["A"] (fun _ => none)
          (fun _ => 0) 0).alloc).sum
        + (allocateCashScored expOne powOne defaultConfig 100 ["A"] (fun _ => none)
            (fun _ => 0) 0).unallocatedCash - 100 : ℚ)|
      ≤ 20 * ((["A"] : List String).length : ℚ)
        + (((["A"] : List String).length : ℚ) + 1) * (1/200) :=
  c2_amended expOne powOne defaultConfig 100 ["A"] (fun _ => none) (fun _ => 0) 0
    (by simp) (by norm_num) (fun x => by norm_num [expOne]) (fun x y => by norm_num [powOne])

namespace AllocCtx

theorem alloc1_eq_zero_of_not_mem (A : AllocCtx) {sym : String} (h : sym ∉ A.wishlist) :
    A.alloc1 sym = 0 := by simp [alloc1, h]

theorem alloc2_eq_zero_of_not_mem (A : AllocCtx) {sym : String} (h : sym ∉ A.wishlist) :
    A.alloc2 sym = 0 := by
  unfold alloc2
  rw [A.alloc1_eq_zero_of_not_mem h]
  split <;> rfl

theorem alloc3_eq_zero_of_not_mem (A : AllocCtx) {sym : String} (h : sym ∉ A.wishlist) :
    A.alloc3 sym = 0 := by
  unfold alloc3
  by_cases hw : A.cfg.wholeShares
  · simp only [hw, if_true, h, if_false]
  · rw [if_neg hw]
    exact A.alloc2_eq_zero_of_not_mem h

end AllocCtx

/-- **C3, counterexample.**  The claim says `allocate_cash_scored` raises a
hard error exactly when the temperature is non-positive or the wishlist is
empty.  The code raises in neither case: at temperature `-1` with a non-empty
wishlist it silently falls back to the default temperature 10
(`temp = softmax_temp if softmax_temp > 0 else 10.0`) and returns a perfectly
ordinary allocation result. -/
theorem c3_counterexample :
    (allocateCashScored expOne powOne { defaultConfig with scoreTemperature := -1 } 100 ["A"]
        (fun _ => none) (fun _ => 0) 0).alloc "A" = 0
    ∧ (allocateCashScored expOne powOne { defaultConfig with scoreTemperature := -1 } 100 ["A"]
        (fun _ => none) (fun _ => 0) 0).unallocatedCash = 100
    ∧ (AllocCtx.mk expOne powOne { defaultConfig with scoreTemperature := -1 } 100 ["A"]
        (fun _ => none) (fun _ => 0) 0).temp = 10 := by
  refine ⟨by decide, by decide, by decide⟩

/-- **C3, amended.**  `allocate_cash_scored` never raises: a non-positive
configured temperature silently falls back to the default 10 and a positive
one is used as-is (the temperature is consumed nowhere else); an empty
wishlist is not an error either — the call returns an empty allocation, an
empty score map, and the whole investable cash as `unallocated_cash`.
(Missing or malformed fundamental data cannot raise by construction: every
field is read through the total `_safe_float`, modelled by `qval`, and an
absent snapshot takes the conservative-default branch of `_score_company`.) -/
theorem c3_amended :
    (∀ A : AllocCtx, A.cfg.scoreTemperature ≤ 0 → A.temp = 10)
    ∧ (∀ A : AllocCtx, 0 < A.cfg.scoreTemperature → A.temp = A.cfg.scoreTemperature)
    ∧ (∀ (expFn : ℚ → ℚ) (powFn : ℚ → ℚ → ℚ) (cfg : AllocConfig) (cash : ℚ)
        (quotes : String → Option Snapshot) (hv : String → ℚ) (htv : ℚ), 0 ≤ cash →
        (allocateCashScored expFn powFn cfg cash [] quotes hv htv).alloc = (fun _ => 0)
        ∧ (allocateCashScored expFn powFn cfg cash [] quotes hv htv).unallocatedCash
            = round2 cash
        ∧ (allocateCashScored expFn powFn cfg cash [] quotes hv htv).scores = []) := by
  refine ⟨?_, ?_, ?_⟩
  · intro A h
    unfold AllocCtx.temp
    rw [if_neg (not_lt.mpr h)]
  · intro A h
    unfold AllocCtx.temp
    rw [if_pos h]
  · intro expFn powFn cfg cash quotes hv htv hcash
    have hfin : (AllocCtx.mk expFn powFn cfg cash [] quotes hv htv).finalState
        = ⟨(AllocCtx.mk expFn powFn cfg cash [] quotes hv htv).alloc3,
           (AllocCtx.mk expFn powFn cfg cash [] quotes hv htv).leftover0⟩ := by
      unfold AllocCtx.finalState
      split
      · apply redistLoop_eq_of_none
        intro e' he'
        have hmem := (AllocCtx.mk expFn powFn cfg cash [] quotes hv htv).byScore_mem_wishlist e' he'
        cases hmem
      · rfl
    have hl0 : (AllocCtx.mk expFn powFn cfg cash [] quotes hv htv).leftover0 = cash := by
      show max 0 (cash - (([] : List String).map
        (AllocCtx.mk expFn powFn cfg cash [] quotes hv htv).alloc3).sum) = cash
      simp [max_eq_right hcash]
    refine ⟨?_, ?_, rfl⟩
    · show (AllocCtx.mk expFn powFn cfg cash [] quotes hv htv).finalState.alloc = fun _ => 0
      rw [hfin]
      funext s
      exact (AllocCtx.mk expFn powFn cfg cash [] quotes hv htv).alloc3_eq_zero_of_not_mem
        (by intro h; cases h)
    · show round2 (AllocCtx.mk expFn powFn cfg cash [] quotes hv htv).finalState.leftover
        = round2 cash
      rw [hfin]
      show round2 (AllocCtx.mk expFn powFn cfg cash [] quotes hv htv).leftover0 = round2 cash
      rw [hl0]

/-- **C3, witness.** -/
theorem c3_witness :
    (AllocCtx.mk expOne powOne { defaultConfig with scoreTemperature := -1 } 100 ["A"]
        (fun _ => none) (fun _ => 0) 0).temp = 10
    ∧ (allocateCashScored expOne powOne defaultConfig 50 [] (fun _ => none)
        (fun _ => 0) 0).unallocatedCash = round2 50 :=
  ⟨c3_amended.1 _ (by decide),
    (c3_amended.2.2 expOne powOne defaultConfig 50 (fun _ => none) (fun _ => 0) 0
      (by norm_num)).2.1⟩

/-- **C5, witness.** -/
theorem c5_witness :
    normalizeDividendYield 7 0 0 = (some (7/100), decide ((7 : ℚ)/100 > 25/100)) :=
  (c5_amended 7 0 0).2.2.2.2.1 (by norm_num) (by norm_num) (by norm_num)
